import Mathlib

/-!
# Verification of the SQLite-image query engine (eaverdeja/codecrafters-sqlite-python)

A shallow embedding of the repository's byte-level decoders and B-tree
traversals, and proofs checking the specification's claims against them.

Modelling conventions:
* Python `bytes` values are `List Nat` (each element a byte value).
* Python slicing `data[a:b]` is `pySlice` (total, truncating, like Python).
* Python code that can raise (`IndexError` from `source[i]`, `ValueError`
  from enum construction or a negative seek, explicit `raise`) is modelled
  with `Option`; `none` means the Python code raises an exception.
* A positioned file reader is modelled by indexing into the file's byte
  list: `f.seek(pos); f.read(n)` is `pySlice file pos (pos + n)`.
* Generators are modelled as the full list of yielded values (in order);
  recursion through on-disk child pointers is bounded by an explicit
  `fuel` argument, `none` at fuel 0 standing for non-termination.
* Bounded `while` loops are written as structural recursion on a countdown
  that mirrors the loop's own bound, so that every definition evaluates.
-/

/-- Python slicing `data[a:b]` for `a ≤ b` byte indices (total, truncating). -/
def pySlice (l : List Nat) (a b : Nat) : List Nat :=
  (l.drop a).take (b - a)

/-- Python `int.from_bytes(l, byteorder="big")` (unsigned, the source's usage). -/
def bytesToNat (l : List Nat) : Nat :=
  l.foldl (fun acc b => acc * 256 + b) 0

/-- Python list indexing `l[i]`, which accepts negative indices counting from
the end and raises `IndexError` (here `none`) when out of range. -/
def pyIndex {α : Type} (l : List α) (i : Int) : Option α :=
  if 0 ≤ i then l[i.toNat]?
  else if 0 ≤ (l.length : Int) + i then l[((l.length : Int) + i).toNat]?
  else none

/-- Pad a byte list with `0` up to length `n` (used to lay out concrete
page images at fixed offsets in witnesses and counterexamples). -/
def padTo (l : List Nat) (n : Nat) : List Nat :=
  l ++ List.replicate (n - l.length) 0

/-- Strict lexicographic order on byte strings: exactly Python's `<` on
`bytes` (a strict prefix is smaller; otherwise the first differing byte
decides). -/
def bytesLt : List Nat → List Nat → Bool
  | _, [] => false
  | [], _ :: _ => true
  | a :: as, b :: bs => if a < b then true else if a = b then bytesLt as bs else false

theorem bytesLt_irrefl (l : List Nat) : bytesLt l l = false := by
  induction l with
  | nil => rfl
  | cons a as ih => simp [bytesLt, ih]

theorem bytesLt_trans {a b c : List Nat} (h1 : bytesLt a b = true)
    (h2 : bytesLt b c = true) : bytesLt a c = true := by
  induction a generalizing b c with
  | nil =>
    cases b with
    | nil => simp [bytesLt] at h1
    | cons y ys =>
      cases c with
      | nil => simp [bytesLt] at h2
      | cons z zs => simp [bytesLt]
  | cons x xs ih =>
    cases b with
    | nil => simp [bytesLt] at h1
    | cons y ys =>
      cases c with
      | nil => simp [bytesLt] at h2
      | cons z zs =>
        simp only [bytesLt] at h1 h2 ⊢
        split at h1
        · split at h2
          · have : x < z := by omega
            simp [this]
          · split at h2
            · rename_i hyz heq
              subst heq
              rename_i hxy
              simp [hxy]
            · simp at h2
        · split at h1
          · rename_i hxy heq
            subst heq
            split at h2
            · rename_i hyz
              simp [hyz]
            · split at h2
              · rename_i h3 heq2
                subst heq2
                simp only [if_neg h3, if_pos rfl]
                exact ih h1 h2
              · simp at h2
          · simp at h1

theorem bytesLt_antisymm {a b : List Nat} (h1 : bytesLt a b = false)
    (h2 : bytesLt b a = false) : a = b := by
  induction a generalizing b with
  | nil =>
    cases b with
    | nil => rfl
    | cons y ys => simp [bytesLt] at h1
  | cons x xs ih =>
    cases b with
    | nil => simp [bytesLt] at h2
    | cons y ys =>
      simp only [bytesLt] at h1 h2
      split at h1
      · simp at h1
      · split at h1
        · rename_i hlt heq
          subst heq
          rw [if_neg hlt, if_pos rfl] at h2
          exact congrArg (x :: ·) (ih h1 h2)
        · rename_i hlt hne
          have hyx : y < x := by omega
          simp [hyx] at h2

/-- `a ≤ b < c` implies `a < c` on byte strings. -/
theorem bytesLt_lt_of_le_of_lt {a b c : List Nat} (h1 : bytesLt b a = false)
    (h2 : bytesLt b c = true) : bytesLt a c = true := by
  cases hac : bytesLt a c with
  | true => rfl
  | false =>
    cases hca : bytesLt c a with
    | true => exact absurd (bytesLt_trans h2 hca) (by simp [h1])
    | false =>
      have : a = c := bytesLt_antisymm hac hca
      subst this
      exact absurd h2 (by simp [h1])

/-- `a < b ≤ c` implies `a < c` on byte strings. -/
theorem bytesLt_lt_of_lt_of_le {a b c : List Nat} (h1 : bytesLt a b = true)
    (h2 : bytesLt c b = false) : bytesLt a c = true := by
  cases hac : bytesLt a c with
  | true => rfl
  | false =>
    cases hca : bytesLt c a with
    | true => exact absurd (bytesLt_trans hca h1) (by simp [h2])
    | false =>
      have : a = c := bytesLt_antisymm hac hca
      subst this
      exact absurd h1 (by simp [h2])

/-- `c ≤ b ≤ a` implies `c ≤ a` on byte strings (stated via negations of
Python's `<`). -/
theorem bytesLt_le_trans {a b c : List Nat} (h1 : bytesLt b a = false)
    (h2 : bytesLt c b = false) : bytesLt c a = false := by
  cases hca : bytesLt c a with
  | false => rfl
  | true => exact absurd (bytesLt_lt_of_lt_of_le hca h1) (by simp [h2])

/-! ## The varint codec (`src/app/varint.py`, `Varint.from_data`)

The same decoding loop also appears verbatim in `src/app/parsers.py`
(class `Varint`) and `src/app/parser.py` (`parse_varint`); all three are
embedded once here. The stream-sourced variant consumes exactly
`bytes_length` bytes from the current position, which callers model by
decoding from `file.drop pos`. -/

structure Varint where
  value : Nat
  bytes_length : Nat
deriving DecidableEq, Repr

/-- The decoding loop of `Varint.from_data`: while fewer than 9 bytes are
read, take the next byte (raising — `none` — when the source is exhausted),
OR its low 7 bits below the accumulator, and stop once a byte's high bit is
clear. The countdown `remaining` equals `9 - bytes_read`, mirroring the
loop guard `bytes_read < 9`. -/
def Varint.fromDataGo (source : List Nat) (value bytes_read : Nat) :
    Nat → Option Varint
  | 0 => some ⟨value, bytes_read⟩
  | remaining + 1 =>
    match source[bytes_read]? with
    | none => none
    | some byte =>
      let value2 := (value <<< 7) ||| (byte &&& 127)
      if byte &&& 128 = 0 then some ⟨value2, bytes_read + 1⟩
      else Varint.fromDataGo source value2 (bytes_read + 1) remaining

/-- `Varint.from_data` from `src/app/varint.py`. -/
def Varint.from_data (source : List Nat) : Option Varint :=
  Varint.fromDataGo source 0 0 9

theorem Varint.fromDataGo_bytes_length {source : List Nat} :
    ∀ {remaining value bytes_read : Nat} {v : Varint},
      Varint.fromDataGo source value bytes_read remaining = some v →
      bytes_read ≤ v.bytes_length ∧ (1 ≤ remaining → bytes_read + 1 ≤ v.bytes_length) := by
  intro remaining
  induction remaining with
  | zero =>
    intro value bytes_read v h
    cases h
    exact ⟨Nat.le_refl _, by omega⟩
  | succ n ih =>
    intro value bytes_read v h
    simp only [Varint.fromDataGo] at h
    cases hb : source[bytes_read]? with
    | none => rw [hb] at h; cases h
    | some byte =>
      rw [hb] at h
      simp only at h
      split at h
      · cases h
        exact ⟨by simp, fun _ => by simp⟩
      · have := ih h
        exact ⟨by omega, by omega⟩

/-- A successful parse consumes at least one byte. -/
theorem Varint.from_data_pos {source : List Nat} {v : Varint}
    (h : Varint.from_data source = some v) : 1 ≤ v.bytes_length := by
  have := (Varint.fromDataGo_bytes_length h).2 (by omega)
  omega

/-- The loop only inspects source bytes it actually consumes, so appending
more bytes after a successful parse does not change the result. -/
theorem Varint.fromDataGo_append {source m : List Nat} :
    ∀ {remaining value bytes_read : Nat} {v : Varint},
      Varint.fromDataGo source value bytes_read remaining = some v →
      Varint.fromDataGo (source ++ m) value bytes_read remaining = some v := by
  intro remaining
  induction remaining with
  | zero => intro value bytes_read v h; exact h
  | succ n ih =>
    intro value bytes_read v h
    simp only [Varint.fromDataGo] at h ⊢
    cases hb : source[bytes_read]? with
    | none => rw [hb] at h; cases h
    | some byte =>
      rw [hb] at h
      have hb2 : (source ++ m)[bytes_read]? = some byte := by
        rw [List.getElem?_append_left, hb]
        exact (List.getElem?_eq_some.mp hb).1
      rw [hb2]
      simp only at h ⊢
      split at h
      · rename_i hhigh
        rw [if_pos hhigh]
        exact h
      · rename_i hhigh
        rw [if_neg hhigh]
        exact ih h

theorem Varint.from_data_append {source m : List Nat} {v : Varint}
    (h : Varint.from_data source = some v) :
    Varint.from_data (source ++ m) = some v :=
  Varint.fromDataGo_append h

/-- Modelled from the spec (§4.1 Varint codec), for comparison with the
source's decoder: for each of the first eight bytes take the low 7 bits,
shifting the accumulator left by 7, and stop after any byte whose high bit
is clear; if a ninth byte is consumed, take all 8 of its bits. The
countdown equals `8 - bytes_read`; when it runs out the ninth byte is read
whole. -/
def varintSpecGo (source : List Nat) (value bytes_read : Nat) :
    Nat → Option Varint
  | 0 => (source[bytes_read]?).map (fun byte => ⟨(value <<< 8) ||| byte, bytes_read + 1⟩)
  | remaining + 1 =>
    match source[bytes_read]? with
    | none => none
    | some byte =>
      let value2 := (value <<< 7) ||| (byte &&& 127)
      if byte &&& 128 = 0 then some ⟨value2, bytes_read + 1⟩
      else varintSpecGo source value2 (bytes_read + 1) remaining

/-- Modelled from the spec (§4.1): the varint decoder the claim describes. -/
def varintSpecDecode (source : List Nat) : Option Varint :=
  varintSpecGo source 0 0 8

/-- C5. The claim says that when a ninth byte is consumed, all 8 of its bits
are taken into the value (as the on-disk format requires). The code's
decoder (`Varint.from_data` in `src/app/varint.py`) instead masks the ninth
byte with `0b01111111` like every other byte. On nine `0xFF` bytes the code
produces `2^63 - 1` (nine 7-bit groups), while the decoder described by the
claim and the on-disk format produces `2^64 - 1`. The first-eight-bytes
behaviour and the byte count agree between the two. -/
theorem c5_ninth_byte_divergence :
    Varint.from_data (List.replicate 9 255) = some ⟨2 ^ 63 - 1, 9⟩ ∧
    varintSpecDecode (List.replicate 9 255) = some ⟨2 ^ 64 - 1, 9⟩ ∧
    (2 ^ 63 - 1 : Nat) ≠ 2 ^ 64 - 1 := by
  refine ⟨by decide, by decide, by decide⟩

/-! ## The serial-type decoder (`src/app/serial_type.py`) -/

/-- The semantic kind a serial-type code denotes (the source pairs a
description string with a byte length; the kind stands for the
description). -/
inductive SerialKind
  | null | int8 | int16 | int24 | int32 | int48 | int64
  | float64 | int0 | int1
  | blob (len : Nat)
  | text (len : Nat)
deriving DecidableEq, Repr

/-- `SQLiteSerialType.decode`: predefined codes 0–9 first, then the dynamic
blob/text codes `≥ 12`; codes 10 and 11 raise `ValueError` (`none`). -/
def SQLiteSerialType.decode (code : Nat) : Option (SerialKind × Nat) :=
  match code with
  | 0 => some (.null, 0)
  | 1 => some (.int8, 1)
  | 2 => some (.int16, 2)
  | 3 => some (.int24, 3)
  | 4 => some (.int32, 4)
  | 5 => some (.int48, 6)
  | 6 => some (.int64, 8)
  | 7 => some (.float64, 8)
  | 8 => some (.int0, 0)
  | 9 => some (.int1, 0)
  | c =>
    if 12 ≤ c then
      let len := (c - 12) / 2
      if c % 2 = 0 then some (.blob len, len) else some (.text ((c - 13) / 2), (c - 13) / 2)
    else none

/-! ## The database image (`src/app/database.py`) -/

/-- The open database file. The Python object stores the path and derives
`page_size` from the header at construction; here the file's bytes stand
for the path, and `page_size` is derived the same way. -/
structure Database where
  file : List Nat
deriving DecidableEq, Repr

/-- `Database._get_page_size`: the big-endian 16-bit integer at file
offset 16. -/
def Database.page_size (db : Database) : Nat :=
  bytesToNat (pySlice db.file 16 18)

/-! ## Pages (`src/app/page.py`) -/

inductive PageType
  | interiorIndex | interiorTable | leafIndex | leafTable
deriving DecidableEq, Repr

/-- `PageType(byte)`: 0x02, 0x05, 0x0A, 0x0D; any other byte raises
`ValueError` (`none`). -/
def PageType.ofByte : Nat → Option PageType
  | 2 => some .interiorIndex
  | 5 => some .interiorTable
  | 10 => some .leafIndex
  | 13 => some .leafTable
  | _ => none

/-- A page: its byte blob and its (0-based, as the source uses them) page
number. The Python constructor also stores `type`, `header_size` and
`rightmost_pointer`; those are pure functions of `data` and are modelled as
accessors below. -/
structure Page where
  data : List Nat
  page_number : Nat
deriving DecidableEq, Repr

/-- `Page.__init__` validates `PageType(data[0])` and raises on an empty
blob or an unknown type byte; construction through this function is the
only way the Python code obtains a `Page`. -/
def Page.ofData (data : List Nat) (page_number : Nat) : Option Page := do
  let b ← data[0]?
  let _ ← PageType.ofByte b
  pure { data := data, page_number := page_number }

/-- The one-byte flag at offset 0 indicating the b-tree page type (stored
by `Page.__init__`). -/
def Page.type? (p : Page) : Option PageType :=
  p.data[0]?.bind PageType.ofByte

/-- The page header is 8 bytes for leaf pages and 12 for interior pages. -/
def Page.header_size (p : Page) : Nat :=
  match p.type? with
  | some .leafTable | some .leafIndex => 8
  | _ => 12

/-- The four-byte page number at offset 8: the right-most pointer, present
on interior pages only (`None` elsewhere). -/
def Page.rightmost_pointer (p : Page) : Option Nat :=
  match p.type? with
  | some .interiorTable | some .interiorIndex => some (bytesToNat (pySlice p.data 8 12))
  | _ => none

/-- The two-byte integer at offset 3: the number of cells on the page. -/
def Page.cell_count (p : Page) : Nat :=
  bytesToNat (pySlice p.data 3 5)

/-- The cell pointer array: `cell_count` big-endian 16-bit offsets
immediately after the page header. -/
def Page.cell_pointers (p : Page) : List Nat :=
  (List.range p.cell_count).map fun i =>
    bytesToNat (pySlice p.data (p.header_size + i * 2) (p.header_size + (i + 1) * 2))

theorem Page.cell_pointers_length (p : Page) :
    p.cell_pointers.length = p.cell_count := by
  simp [Page.cell_pointers]

/-- `Page.get_child_pointer`: the 4-byte big-endian left-child page number
at the cell offset; raises (`none`) on leaf pages. -/
def Page.get_child_pointer (p : Page) (cell_pointer : Nat) : Option Nat :=
  match p.type? with
  | some .interiorTable | some .interiorIndex =>
      some (bytesToNat (pySlice p.data cell_pointer (cell_pointer + 4)))
  | _ => none

/-- `Page.get_record_size`: the varint at the cell offset, leaf pages
only. -/
def Page.get_record_size (p : Page) (cell_pointer : Nat) : Option Varint :=
  match p.type? with
  | some .leafTable | some .leafIndex => Varint.from_data (p.data.drop cell_pointer)
  | _ => none

/-- `Page.get_row_id`: on interior table pages the varint after the 4-byte
child pointer; on leaf table pages the varint after the record-size varint;
raises (`none`) on non-table pages. -/
def Page.get_row_id (p : Page) (cell_pointer : Nat) : Option Varint :=
  match p.type? with
  | some .interiorTable => Varint.from_data (p.data.drop (cell_pointer + 4))
  | some .leafTable => do
      let record_size ← p.get_record_size cell_pointer
      Varint.from_data (p.data.drop (cell_pointer + record_size.bytes_length))
  | _ => none

/-- `Page.get_page`: seek to `100` for page 0, else `page_size *
page_number`, read one page worth of bytes and construct the page. A
negative page number makes the Python `seek` raise (`none`); an empty or
type-invalid read makes the constructor raise (`none`). -/
def Page.get_page (db : Database) (page_number : Int) : Option Page :=
  if page_number < 0 then none
  else
    let n := page_number.toNat
    let offset := if n = 0 then 100 else db.page_size * n
    Page.ofData (pySlice db.file offset (offset + db.page_size)) n

/-- `Database.get_page` (`src/app/database.py`): same seek-and-read, but an
empty read returns the sentinel `None` — modelled as `some none` — instead
of constructing a page; constructor failure on a nonempty read still
raises (outer `none`). -/
def Database.get_page (db : Database) (page_number : Int) : Option (Option Page) :=
  if page_number < 0 then none
  else
    let n := page_number.toNat
    let offset := if n = 0 then 100 else db.page_size * n
    let data := pySlice db.file offset (offset + db.page_size)
    if data = [] then some none
    else (Page.ofData data n).map some

/-! ## C7: reads at or past end-of-file -/

/-- Concrete image for C7: declared page size 16 but only 40 bytes of
file, so any fetch of page 3 or beyond reads nothing. -/
def c7db : Database :=
  { file := padTo (List.replicate 16 0 ++ [0, 16]) 40 }

/-- C7 counterexample. The claim says every fetch path used by the B-tree
walkers returns a sentinel empty page, not an error, when the computed
offset lies at or past end-of-file. The walkers (`walk_btree`,
`search_index`) fetch exclusively through `Page.get_page`
(`src/app/page.py`), which has no empty-read check: it passes the empty
read to the `Page` constructor, which raises `IndexError` on `data[0]` —
`none` here, not a sentinel. -/
theorem c7_walker_fetch_raises_at_eof :
    c7db.file.length ≤ c7db.page_size * 3 ∧ Page.get_page c7db 3 = none :=
  ⟨by decide, by decide⟩

/-- C7 amended: only `Database.get_page` (`src/app/database.py`) — a
function no B-tree walker calls — returns the sentinel (`None`) when the
read at or past end-of-file yields no data. -/
theorem c7_database_get_page_sentinel (db : Database) (n : Int) (hn : 0 ≤ n)
    (hoff : db.file.length ≤ if n.toNat = 0 then 100 else db.page_size * n.toNat) :
    Database.get_page db n = some none := by
  unfold Database.get_page
  rw [if_neg (by omega)]
  simp only [pySlice]
  rw [List.drop_eq_nil_of_le hoff]
  simp

theorem c7_database_get_page_sentinel_witness :
    (0 : Int) ≤ 3 ∧
      (c7db.file.length ≤ if (3 : Int).toNat = 0 then 100 else c7db.page_size * (3 : Int).toNat) ∧
      Database.get_page c7db 3 = some none :=
  ⟨by decide, by decide, c7_database_get_page_sentinel c7db 3 (by decide) (by decide)⟩

/-! ## The generic B-tree walker (`src/app/page.py`) -/

/-- The `BTreeWalker` protocol: `visit_leaf` is required; `visit_interior`
defaults to returning `None` (inner `none`); `choose_paths` has no default
body, so calling it on a walker that does not implement it returns `None`,
and iterating that `None` in `search_index` raises — modelled by a default
of `none`. `truthy` supplies Python's truthiness for `T` values, used by
`search_index`'s `if result := walker.visit_interior(page)` test. -/
structure BTreeWalker (T : Type) where
  visit_leaf : Page → Option T
  visit_interior : Page → Option (Option T) := fun _ => some none
  choose_paths : Page → Option (List Int) := fun _ => none
  truthy : T → Bool := fun _ => true

/-- The binary-search loop of the rowid-directed descent in `walk_btree`
(`src/app/page.py`): while `left <= right`, read the rowid at `mid`; if the
target is `<=` it, move `right` to `mid - 1` and record the mid cell's left
child as the next page; otherwise move `left` to `mid + 1` and record the
left child of the cell now at `left`. The countdown bounds the iteration
count; each iteration strictly shrinks `right + 1 - left`, which starts at
`cell_count`, so the fuel `cell_count + 1` supplied by `walk_btree` never
reaches zero with the guard still true. -/
def bsLoop (page : Page) (target_row_id : Nat) :
    Nat → Nat → Int → Int → Option Int
  | 0, left, right, next => if (left : Int) ≤ right then none else some next
  | fuel + 1, left, right, next =>
    if (left : Int) ≤ right then do
      let mid := (left + right.toNat) / 2
      let cell_pointer ← page.cell_pointers[mid]?
      let row_id ← page.get_row_id cell_pointer
      if target_row_id ≤ row_id.value then do
        let left_child_pointer ← page.get_child_pointer cell_pointer
        bsLoop page target_row_id fuel left ((mid : Int) - 1) ((left_child_pointer : Int) - 1)
      else do
        let cell_pointer2 ← page.cell_pointers[mid + 1]?
        let right_child_pointer ← page.get_child_pointer cell_pointer2
        bsLoop page target_row_id fuel (mid + 1) right ((right_child_pointer : Int) - 1)
    else some next

/-- The full-scan loop of `walk_btree` over a page's cell pointers: fetch
each cell's left child in cell order and recurse (`step` is `walk_btree`
at one less fuel), concatenating the yields. -/
def walkScanChildren {T : Type} (db : Database) (step : Page → Option (List T))
    (page : Page) : List Nat → Option (List T)
  | [] => some []
  | cell_pointer :: rest => do
    let left_child_pointer ← page.get_child_pointer cell_pointer
    let child_page ← Page.get_page db ((left_child_pointer : Int) - 1)
    let l ← step child_page
    let ls ← walkScanChildren db step page rest
    pure (l ++ ls)

/-- `walk_btree` (`src/app/page.py`). A leaf table page yields
`visit_leaf`. Otherwise `visit_interior` is yielded when not `None`; then,
with a truthy `target_row_id`, the rowid-directed descent recurses into
exactly one child (right-most when the target exceeds the last rowid —
falling through with no further yields when the right-most pointer is
falsy —, the first cell's left child when it is below the first rowid, and
the binary-search result otherwise); with no target, the full scan
recurses into every cell's left child in order and then the truthy
right-most pointer. -/
def walk_btree {T : Type} (db : Database) (w : BTreeWalker T)
    (target_row_id : Option Nat) : Nat → Page → Option (List T)
  | 0 => fun _ => none
  | fuel + 1 => fun page =>
    if page.type? = some .leafTable then do
      let r ← w.visit_leaf page
      pure [r]
    else do
      let ir ← w.visit_interior page
      let pre := ir.toList
      if target_row_id.getD 0 ≠ 0 then do
        let target := target_row_id.getD 0
        let first_cell_pointer ← page.cell_pointers[0]?
        let first_row_id ← page.get_row_id first_cell_pointer
        let last_cell_pointer ← page.cell_pointers.getLast?
        let last_row_id ← page.get_row_id last_cell_pointer
        if last_row_id.value < target then
          match page.rightmost_pointer with
          | some rm =>
            if rm ≠ 0 then do
              let rightmost_page ← Page.get_page db ((rm : Int) - 1)
              let rest ← walk_btree db w target_row_id fuel rightmost_page
              pure (pre ++ rest)
            else pure pre
          | none => pure pre
        else if target < first_row_id.value then do
          let left_child_pointer ← page.get_child_pointer first_cell_pointer
          let leftmost_page ← Page.get_page db ((left_child_pointer : Int) - 1)
          let rest ← walk_btree db w target_row_id fuel leftmost_page
          pure (pre ++ rest)
        else do
          let next_page_number ←
            bsLoop page target (page.cell_count + 1) 0 ((page.cell_count : Int) - 1) (-1)
          let next_page ← Page.get_page db next_page_number
          let rest ← walk_btree db w target_row_id fuel next_page
          pure (pre ++ rest)
      else do
        let childPart ←
          walkScanChildren db (fun p => walk_btree db w target_row_id fuel p)
            page page.cell_pointers
        let rmPart ←
          match page.rightmost_pointer with
          | some rm =>
            if rm ≠ 0 then do
              let rightmost_page ← Page.get_page db ((rm : Int) - 1)
              walk_btree db w target_row_id fuel rightmost_page
            else pure []
          | none => pure []
        pure (pre ++ childPart ++ rmPart)

/-! ## C1: the rowid-directed descent -/

/-- The decoded rowid of the `i`-th cell of a page: `get_row_id` applied to
the `i`-th cell pointer. -/
def rowidAt (p : Page) (i : Nat) : Option Nat :=
  (p.cell_pointers[i]?.bind p.get_row_id).map Varint.value

/-- The left-child page number stored in the `i`-th cell of an interior
page: `get_child_pointer` applied to the `i`-th cell pointer. -/
def childPageAt (p : Page) (i : Nat) : Option Nat :=
  p.cell_pointers[i]?.bind p.get_child_pointer

theorem rowidAt_destruct {p : Page} {i r : Nat} (h : rowidAt p i = some r) :
    ∃ cp v, p.cell_pointers[i]? = some cp ∧ p.get_row_id cp = some v ∧ v.value = r := by
  unfold rowidAt at h
  rw [Option.map_eq_some'] at h
  obtain ⟨v, hv, hval⟩ := h
  rw [Option.bind_eq_some] at hv
  obtain ⟨cp, hcp, hrow⟩ := hv
  exact ⟨cp, v, hcp, hrow, hval⟩

theorem childPageAt_destruct {p : Page} {i c : Nat} (h : childPageAt p i = some c) :
    ∃ cp, p.cell_pointers[i]? = some cp ∧ p.get_child_pointer cp = some c := by
  unfold childPageAt at h
  rw [Option.bind_eq_some] at h
  exact h

/-- The least index `i ≥ start` within the next `fuel` indices such that
`R ≤ rid i`, or `start + fuel` when there is none: the "smallest cell whose
rowid is ≥ R" from the claim's description of the binary search. -/
def leastGE (rid : Nat → Nat) (R : Nat) : Nat → Nat → Nat
  | start, 0 => start
  | start, fuel + 1 => if R ≤ rid start then start else leastGE rid R (start + 1) fuel

theorem leastGE_ge (rid : Nat → Nat) (R : Nat) :
    ∀ fuel start, start ≤ leastGE rid R start fuel := by
  intro fuel
  induction fuel with
  | zero => intro start; exact Nat.le_refl _
  | succ n ih =>
    intro start
    simp only [leastGE]
    split
    · exact Nat.le_refl _
    · exact Nat.le_trans (Nat.le_succ _) (ih (start + 1))

theorem leastGE_lt (rid : Nat → Nat) (R : Nat) :
    ∀ fuel start i, start ≤ i → i < start + fuel → R ≤ rid i →
      leastGE rid R start fuel < start + fuel := by
  intro fuel
  induction fuel with
  | zero => intro start i h1 h2 _; omega
  | succ n ih =>
    intro start i h1 h2 h3
    simp only [leastGE]
    split
    · omega
    · rename_i hstart
      rcases Nat.eq_or_lt_of_le h1 with rfl | h1'
      · exact absurd h3 hstart
      · have := ih (start + 1) i h1' (by omega) h3
        omega

theorem leastGE_ge_R (rid : Nat → Nat) (R : Nat) :
    ∀ fuel start, leastGE rid R start fuel < start + fuel →
      R ≤ rid (leastGE rid R start fuel) := by
  intro fuel
  induction fuel with
  | zero => intro start h; simp [leastGE] at h
  | succ n ih =>
    intro start h
    by_cases hstart : R ≤ rid start
    · simpa only [leastGE, if_pos hstart] using hstart
    · simp only [leastGE, if_neg hstart] at h ⊢
      exact ih (start + 1) (by omega)

theorem leastGE_min (rid : Nat → Nat) (R : Nat) :
    ∀ fuel start j, start ≤ j → j < leastGE rid R start fuel → rid j < R := by
  intro fuel
  induction fuel with
  | zero => intro start j h1 h2; simp [leastGE] at h2; omega
  | succ n ih =>
    intro start j h1 h2
    simp only [leastGE] at h2
    split at h2
    · omega
    · rename_i hstart
      rcases Nat.eq_or_lt_of_le h1 with rfl | h1'
      · omega
      · exact ih (start + 1) j h1' h2

/-- Invariant proof for the binary-search loop: with ascending rowids and
`idx` the least cell index whose rowid is `≥ R`, the loop ends up
descending into cell `idx`'s left child, whatever intermediate
`next_page_number` values it records. -/
theorem bsLoop_spec (page : Page) (R : Nat) (rid child : Nat → Nat) (idx : Nat)
    (hrid : ∀ i, i < page.cell_count → rowidAt page i = some (rid i))
    (hchild : ∀ i, i < page.cell_count → childPageAt page i = some (child i))
    (hsort : ∀ i j, i ≤ j → j < page.cell_count → rid i ≤ rid j)
    (hidx : idx < page.cell_count) (hge : R ≤ rid idx)
    (hmin : ∀ j, j < idx → rid j < R) :
    ∀ fuel (left : Nat) (right next : Int),
      (right + 1 - left).toNat < fuel →
      left ≤ idx → (idx : Int) ≤ right + 1 → right < (page.cell_count : Int) →
      ((left : Int) = right + 1 → next = (child idx : Int) - 1) →
      bsLoop page R fuel left right next = some ((child idx : Int) - 1) := by
  intro fuel
  induction fuel with
  | zero => intro left right next hfuel _ _ _ _; omega
  | succ fuel ih =>
    intro left right next hfuel hl hr hrn hterm
    by_cases hguard : (left : Int) ≤ right
    · simp only [bsLoop, if_pos hguard]
      have hmid1 : left ≤ (left + right.toNat) / 2 := by omega
      have hmid2 : (((left + right.toNat) / 2 : Nat) : Int) ≤ right := by omega
      have hmidn : (left + right.toNat) / 2 < page.cell_count := by omega
      obtain ⟨cp, v, hcp, hv, hval⟩ := rowidAt_destruct (hrid _ hmidn)
      obtain ⟨cp', hcp', hc'⟩ := childPageAt_destruct (hchild _ hmidn)
      rw [hcp] at hcp'
      cases hcp'
      simp only [hcp, hv, Option.bind_eq_bind', Option.some_bind']
      by_cases hcmp : R ≤ v.value
      · rw [if_pos hcmp]
        simp only [hc', Option.bind_eq_bind', Option.some_bind']
        have hle : idx ≤ (left + right.toNat) / 2 := by
          by_contra hcon
          have := hmin ((left + right.toNat) / 2) (by omega)
          omega
        exact ih left ((((left + right.toNat) / 2 : Nat) : Int) - 1)
          ((child ((left + right.toNat) / 2) : Int) - 1)
          (by omega) hl (by omega) (by omega)
          (by
            intro heq
            have : idx = (left + right.toNat) / 2 := by omega
            rw [this])
      · rw [if_neg hcmp]
        have hgt : (left + right.toNat) / 2 < idx := by
          by_contra hcon
          have := hsort idx ((left + right.toNat) / 2) (by omega) hmidn
          omega
        have hmidn2 : (left + right.toNat) / 2 + 1 < page.cell_count := by omega
        obtain ⟨cp2, hcp2, hc2⟩ := childPageAt_destruct (hchild _ hmidn2)
        simp only [hcp2, hc2, Option.bind_eq_bind', Option.some_bind']
        exact ih ((left + right.toNat) / 2 + 1) right
          ((child ((left + right.toNat) / 2 + 1) : Int) - 1)
          (by omega) (by omega) hr hrn
          (by
            intro heq
            have : idx = (left + right.toNat) / 2 + 1 := by omega
            rw [this])
    · simp only [bsLoop, if_neg hguard]
      rw [hterm (by omega)]

/-- `CellCounter` (`src/app/btree.py`): `visit_leaf` returns the page's
cell count; the other protocol methods keep their defaults. -/
def CellCounter : BTreeWalker Nat :=
  { visit_leaf := fun page => some page.cell_count }

/-- C1. On an interior table page with a truthy target rowid `R`, ascending
cell rowids and a truthy right-most pointer, one step of `walk_btree`'s
rowid-directed descent yields the interior visit (when not `None`) and
recurses into exactly one child: the right-most child when `R` exceeds the
last cell's rowid; the first cell's left child when `R` is below the first
cell's rowid; otherwise the left child of the smallest cell whose rowid is
`≥ R`, which the binary search locates. Such a cell always exists in the
remaining regime (`R ≤` last rowid), so the claim's fallback to the
right-most pointer is vacuously satisfied. -/
theorem c1_rowid_directed_descent {T : Type} (db : Database) (w : BTreeWalker T)
    (page : Page) (fuel R : Nat) (rid child : Nat → Nat) (rm : Nat) (ir : Option T)
    (htype : page.type? = some PageType.interiorTable)
    (hn : 0 < page.cell_count)
    (hR : R ≠ 0)
    (hvi : w.visit_interior page = some ir)
    (hrm : page.rightmost_pointer = some rm)
    (hrm0 : rm ≠ 0)
    (hrid : ∀ i, i < page.cell_count → rowidAt page i = some (rid i))
    (hchild : ∀ i, i < page.cell_count → childPageAt page i = some (child i))
    (hsort : ∀ i j, i ≤ j → j < page.cell_count → rid i ≤ rid j) :
    walk_btree db w (some R) (fuel + 1) page =
      (Page.get_page db
          (if rid (page.cell_count - 1) < R then (rm : Int) - 1
           else if R < rid 0 then (child 0 : Int) - 1
           else (child (leastGE rid R 0 page.cell_count) : Int) - 1)).bind
        (fun p => (walk_btree db w (some R) fuel p).bind
          (fun rest => some (ir.toList ++ rest))) := by
  have hlen := Page.cell_pointers_length page
  obtain ⟨cp0, v0, hcp0, hv0, hval0⟩ := rowidAt_destruct (hrid 0 hn)
  obtain ⟨cpL, vL, hcpL, hvL, hvalL⟩ :=
    rowidAt_destruct (hrid (page.cell_count - 1) (by omega))
  have hlast : page.cell_pointers.getLast? = some cpL := by
    rw [List.getLast?_eq_getElem?, hlen]
    exact hcpL
  simp only [walk_btree, htype]
  rw [if_neg (by simp)]
  simp only [hvi, Option.bind_eq_bind', Option.some_bind', Option.getD_some]
  rw [if_pos hR]
  simp only [hcp0, hv0, hlast, hvL, Option.bind_eq_bind', Option.some_bind']
  rw [hval0, hvalL]
  by_cases hA : rid (page.cell_count - 1) < R
  · rw [if_pos hA, if_pos hA, hrm]
    simp only [if_pos hrm0]
    rfl
  · rw [if_neg hA, if_neg hA]
    by_cases hB : R < rid 0
    · rw [if_pos hB, if_pos hB]
      obtain ⟨cp0', hcp0', hc0⟩ := childPageAt_destruct (hchild 0 hn)
      rw [hcp0] at hcp0'
      cases hcp0'
      simp only [hc0, Option.bind_eq_bind', Option.some_bind']
      rfl
    · rw [if_neg hB, if_neg hB]
      have hlastge : R ≤ rid (page.cell_count - 1) := by omega
      have hltn : leastGE rid R 0 page.cell_count < page.cell_count := by
        have := leastGE_lt rid R page.cell_count 0 (page.cell_count - 1)
          (by omega) (by omega) hlastge
        omega
      have hbs := bsLoop_spec page R rid child (leastGE rid R 0 page.cell_count)
        hrid hchild hsort hltn
        (by
          have := leastGE_ge_R rid R page.cell_count 0 (by omega)
          exact this)
        (fun j hj => leastGE_min rid R page.cell_count 0 j (Nat.zero_le _) hj)
        (page.cell_count + 1) 0 ((page.cell_count : Int) - 1) (-1)
        (by omega) (by omega) (by omega) (by omega) (by intro h; exfalso; omega)
      rw [hbs]
      simp only [Option.bind_eq_bind', Option.some_bind']
      rfl

/-- Concrete interior table page for the C1 witness: two cells with rowids
10 and 20 whose left children are pages 3 and 4 (1-based), right-most
pointer 5. -/
def c1page : Page :=
  { data := [5, 0, 0, 0, 2, 0, 0, 0, 0, 0, 0, 5, 0, 16, 0, 21,
             0, 0, 0, 3, 10, 0, 0, 0, 4, 20]
    page_number := 1 }

def c1db : Database := { file := [] }

/-- Witness for `c1_rowid_directed_descent`: the concrete page above, the
`CellCounter` walker and the in-range target rowid 15. -/
theorem c1_rowid_directed_descent_witness :
    c1page.type? = some PageType.interiorTable ∧ 0 < c1page.cell_count ∧
      walk_btree c1db CellCounter (some 15) 2 c1page =
        (Page.get_page c1db
            (if (fun i => 10 * i + 10) (c1page.cell_count - 1) < 15 then ((5 : Nat) : Int) - 1
             else if 15 < (fun i => 10 * i + 10) 0 then (((fun i => i + 3) 0 : Nat) : Int) - 1
             else (((fun i => i + 3)
                 (leastGE (fun i => 10 * i + 10) 15 0 c1page.cell_count) : Nat) : Int) - 1)).bind
          (fun p => (walk_btree c1db CellCounter (some 15) 1 p).bind
            (fun rest => some ((none : Option Nat).toList ++ rest))) :=
  ⟨by decide, by decide,
    c1_rowid_directed_descent c1db CellCounter c1page 1 15
      (fun i => 10 * i + 10) (fun i => i + 3) 5 none
      (by decide) (by decide) (by decide) (by decide) (by decide) (by decide)
      (by decide) (by decide)
      (fun i j hij hj => by show 10 * i + 10 ≤ 10 * j + 10; omega)⟩

/-! ## C2: the full-table scan -/

/-- The cell loop of `RecordCollector.visit_leaf` (`src/app/btree.py`): for
each cell pointer, parse the payload-size varint and the rowid varint from
the in-memory page blob, then slice out the payload. -/
def RecordCollector.visitLeafGo (page : Page) : List Nat → Option (List (Nat × List Nat))
  | [] => some []
  | cell_pointer :: rest => do
    let data := page.data.drop cell_pointer
    let record_size_varint ← Varint.from_data data
    let rowid_varint ← Varint.from_data (data.drop record_size_varint.bytes_length)
    let offset := record_size_varint.bytes_length + rowid_varint.bytes_length
    let records ← RecordCollector.visitLeafGo page rest
    pure ((rowid_varint.value, pySlice data offset (offset + record_size_varint.value)) :: records)

/-- `RecordCollector.visit_leaf`: `(rowid, payload)` for every cell of a
leaf page, in cell order. -/
def RecordCollector.visit_leaf (page : Page) : Option (List (Nat × List Nat)) :=
  RecordCollector.visitLeafGo page page.cell_pointers

/-- `RecordCollector` as a `BTreeWalker`: only `visit_leaf` is overridden;
`visit_interior` and `choose_paths` keep the protocol defaults. -/
def RecordCollector.walker : BTreeWalker (List (Nat × List Nat)) :=
  { visit_leaf := RecordCollector.visit_leaf }

/-- The rowids stored in a leaf table page, read through the page accessor
`Page.get_row_id` (an independent decoding path from `RecordCollector`'s
inline parsing). -/
def storedRowidsLeaf (page : Page) : List Nat → Option (List Nat)
  | [] => some []
  | cell_pointer :: rest => do
    let v ← page.get_row_id cell_pointer
    let vs ← storedRowidsLeaf page rest
    pure (v.value :: vs)

/-- The per-cell child recursion for `storedRowids`: each cell's left child
in cell order. -/
def storedRowidsChildren (db : Database) (step : Page → Option (List Nat))
    (page : Page) : List Nat → Option (List Nat)
  | [] => some []
  | cell_pointer :: rest => do
    let lc ← page.get_child_pointer cell_pointer
    let child ← Page.get_page db ((lc : Int) - 1)
    let l ← step child
    let ls ← storedRowidsChildren db step page rest
    pure (l ++ ls)

/-- The rowids stored under a page — the claim's "set of rowids stored
under the root": on a leaf table page its cells' rowids in cell order (via
`Page.get_row_id`); otherwise the rowids under every cell's left child in
cell order, followed by those under the truthy right-most pointer. -/
def storedRowids (db : Database) : Nat → Page → Option (List Nat)
  | 0 => fun _ => none
  | fuel + 1 => fun page =>
    if page.type? = some PageType.leafTable then
      storedRowidsLeaf page page.cell_pointers
    else do
      let childPart ← storedRowidsChildren db (fun p => storedRowids db fuel p)
        page page.cell_pointers
      let rmPart ←
        match page.rightmost_pointer with
        | some rm =>
          if rm ≠ 0 then do
            let rp ← Page.get_page db ((rm : Int) - 1)
            storedRowids db fuel rp
          else pure []
        | none => pure []
      pure (childPart ++ rmPart)

/-- On a leaf table page, `RecordCollector`'s inline varint parsing reads
the same record-size and rowid varints as the `Page.get_row_id` accessor,
cell by cell. -/
theorem visitLeafGo_fst_eq_storedLeaf (page : Page)
    (htype : page.type? = some PageType.leafTable) :
    ∀ cps out stored, RecordCollector.visitLeafGo page cps = some out →
      storedRowidsLeaf page cps = some stored →
      out.map Prod.fst = stored := by
  intro cps
  induction cps with
  | nil =>
    intro out stored hv hs
    cases hv; cases hs; rfl
  | cons cp rest ih =>
    intro out stored hv hs
    simp only [RecordCollector.visitLeafGo, Option.bind_eq_bind', Option.pure_def,
      Option.bind_eq_some'] at hv
    obtain ⟨rs, hrs, rid, hrid, recs, hrecs, hout⟩ := hv
    simp only [storedRowidsLeaf, Option.bind_eq_bind', Option.pure_def,
      Option.bind_eq_some'] at hs
    obtain ⟨v, hvv, vs, hvs, hstored⟩ := hs
    have hrow : page.get_row_id cp = some rid := by
      unfold Page.get_row_id
      rw [htype]
      simp only [Page.get_record_size, htype]
      rw [hrs]
      simp only [Option.bind_eq_bind', Option.some_bind']
      rw [List.drop_drop] at hrid
      exact hrid
    rw [hrow] at hvv
    cases hvv
    cases hout
    cases hstored
    simp only [List.map_cons]
    rw [ih recs vs hrecs hvs]

/-- The full-scan child loop agrees with `storedRowids`' child loop: both
fetch the same left children in the same order. -/
theorem walkChildren_fst_eq_storedChildren (db : Database) (fuel : Nat)
    (ihfuel : ∀ page out stored,
      walk_btree db RecordCollector.walker none fuel page = some out →
      storedRowids db fuel page = some stored → out.flatten.map Prod.fst = stored)
    (page : Page) :
    ∀ cps out stored,
      walkScanChildren db (fun p => walk_btree db RecordCollector.walker none fuel p)
        page cps = some out →
      storedRowidsChildren db (fun p => storedRowids db fuel p) page cps = some stored →
      out.flatten.map Prod.fst = stored := by
  intro cps
  induction cps with
  | nil => intro out stored h1 h2; cases h1; cases h2; rfl
  | cons cp rest ih =>
    intro out stored h1 h2
    simp only [walkScanChildren, Option.bind_eq_bind', Option.pure_def,
      Option.bind_eq_some'] at h1
    obtain ⟨lc, hlc, child, hchild, l, hl, ls, hls, hout⟩ := h1
    simp only [storedRowidsChildren, Option.bind_eq_bind', Option.pure_def,
      Option.bind_eq_some'] at h2
    obtain ⟨lc', hlc', child', hchild', s, hsx, ss, hss, hstored⟩ := h2
    rw [hlc] at hlc'
    cases hlc'
    rw [hchild] at hchild'
    cases hchild'
    cases hout
    cases hstored
    rw [List.flatten_append, List.map_append, ihfuel child l s hl hsx, ih ls ss hls hss]

/-- The full-table scan of `walk_btree` with `RecordCollector` collects, in
order, exactly the rowids `storedRowids` finds under the same page. -/
theorem walk_scan_eq_stored (db : Database) :
    ∀ fuel page out stored,
      walk_btree db RecordCollector.walker none fuel page = some out →
      storedRowids db fuel page = some stored →
      out.flatten.map Prod.fst = stored := by
  intro fuel
  induction fuel with
  | zero => intro page out stored hw _; simp [walk_btree] at hw
  | succ fuel ih =>
    intro page out stored hw hs
    simp only [walk_btree] at hw
    simp only [storedRowids] at hs
    by_cases htype : page.type? = some PageType.leafTable
    · rw [if_pos htype] at hw hs
      simp only [RecordCollector.walker, RecordCollector.visit_leaf, Option.bind_eq_bind',
        Option.pure_def, Option.bind_eq_some'] at hw
      obtain ⟨r, hr, hout⟩ := hw
      cases hout
      simpa using visitLeafGo_fst_eq_storedLeaf page htype page.cell_pointers r stored hr hs
    · rw [if_neg htype] at hw hs
      simp only [RecordCollector.walker, Option.bind_eq_bind', Option.some_bind',
        Option.getD_none, Option.toList] at hw
      rw [if_neg (by decide)] at hw
      simp only [Option.bind_eq_bind', Option.pure_def, Option.bind_eq_some'] at hw hs
      obtain ⟨childPart, hcp, hrest⟩ := hw
      obtain ⟨childPart', hcp', hrest'⟩ := hs
      have hchildren := walkChildren_fst_eq_storedChildren db fuel ih page
        page.cell_pointers childPart childPart' hcp hcp'
      cases hrmptr : page.rightmost_pointer with
      | none =>
        rw [hrmptr] at hrest hrest'
        simp only [Option.some_bind'] at hrest hrest'
        cases hrest
        cases hrest'
        simp only [List.nil_append, List.append_nil, List.flatten_append, List.map_append,
          hchildren]
      | some rm =>
        rw [hrmptr] at hrest hrest'
        by_cases hrm0 : rm ≠ 0
        · simp only [if_pos hrm0, Option.bind_eq_bind', Option.bind_eq_some'] at hrest hrest'
          obtain ⟨rp, hrp, rmList, hwrm, hout⟩ := hrest
          obtain ⟨rp', hrp', rmList', hsrm, hstored⟩ := hrest'
          rw [hrp] at hrp'
          cases hrp'
          cases hout
          cases hstored
          have hrm := ih rp rmList rmList' hwrm hsrm
          simp only [List.nil_append, List.flatten_append, List.map_append, hchildren, hrm]
        · simp only [if_neg hrm0, Option.some_bind'] at hrest hrest'
          cases hrest
          cases hrest'
          simp [hchildren]

/-- C2. For a well-formed table B-tree — one whose pages all parse, whose
child pointers resolve, and whose stored rowid sequence (each cell's left
child in cell order, then the right-most child) is strictly ascending — a
full-table scan via `walk_btree` with no target rowid collects exactly the
rowids stored under the root, whatever the tree's shape, and emits them in
ascending rowid order. -/
theorem c2_full_scan_complete_and_ordered (db : Database) (fuel : Nat) (page : Page)
    (out : List (List (Nat × List Nat))) (stored : List Nat)
    (hw : walk_btree db RecordCollector.walker none fuel page = some out)
    (hs : storedRowids db fuel page = some stored)
    (hsorted : List.Chain' (· < ·) stored) :
    out.flatten.map Prod.fst = stored ∧ List.Chain' (· < ·) (out.flatten.map Prod.fst) := by
  have h := walk_scan_eq_stored db fuel page out stored hw hs
  exact ⟨h, h ▸ hsorted⟩

/-- Concrete database for the C2 witness: page size 128; page 1 (0-based)
is an interior table root with one cell (rowid 10, left child page 3
1-based) and right-most pointer 4 (1-based); pages 2 and 3 (0-based) are
single-cell leaves with rowids 5 and 20. -/
def c2db : Database :=
  { file :=
      padTo (List.replicate 16 0 ++ [0, 128]) 128 ++
      padTo [5, 0, 0, 0, 1, 0, 0, 0, 0, 0, 0, 4, 0, 16, 0, 0, 0, 0, 0, 3, 10] 128 ++
      padTo [13, 0, 0, 0, 1, 0, 0, 0, 0, 12, 0, 0, 2, 5, 1, 9] 128 ++
      padTo [13, 0, 0, 0, 1, 0, 0, 0, 0, 12, 0, 0, 2, 20, 7, 8] 128 }

/-- The root page of `c2db` (page 1, 0-based). -/
def c2root : Page :=
  { data := padTo [5, 0, 0, 0, 1, 0, 0, 0, 0, 0, 0, 4, 0, 16, 0, 0, 0, 0, 0, 3, 10] 128
    page_number := 1 }

set_option maxRecDepth 8000 in
/-- Witness for `c2_full_scan_complete_and_ordered` on the concrete
two-leaf tree above: the scan returns rows with rowids 5 then 20, matching
the stored rowids, in ascending order. -/
theorem c2_full_scan_witness :
    walk_btree c2db RecordCollector.walker none 3 c2root =
        some [[(5, [1, 9])], [(20, [7, 8])]] ∧
      storedRowids c2db 3 c2root = some [5, 20] ∧
      ([[(5, [1, 9])], [(20, [7, 8])]] : List (List (Nat × List Nat))).flatten.map Prod.fst
          = [5, 20] ∧
      List.Chain' (· < ·)
        (([[(5, [1, 9])], [(20, [7, 8])]] : List (List (Nat × List Nat))).flatten.map Prod.fst) := by
  have h := c2_full_scan_complete_and_ordered c2db 3 c2root
    [[(5, [1, 9])], [(20, [7, 8])]] [5, 20] (by decide) (by decide)
    (List.chain'_cons.mpr ⟨by norm_num, List.chain'_singleton 20⟩)
  exact ⟨by decide, by decide, h.1, h.2⟩

/-! ## The index search (`src/app/btree.py` `IndexSearcher`,
`src/app/page.py` `search_index`) -/

/-- The serial-type loop of `_parse_key_record` (`src/app/btree.py`):
`while total_bytes_read < record_header.value`, decode a varint at
`key_record[offset + total_bytes_read - 1:]` — the source's off-by-one,
which re-reads the header-size byte as the first "serial type"; the later
reset of `offset` to zero makes the column slices land correctly for
one-byte headers — and decode it as a serial type. Every successful
iteration consumes at least one unit of the countdown's budget
(`bytes_length ≥ 1`), so the initial fuel `stop + 1` never reaches zero
with the guard still true (`parseKeyLoop_fuel_irrelevant`). -/
def parseKeyLoop (key_record : List Nat) (offset stop : Nat) :
    Nat → Nat → List (SerialKind × Nat) → Option (List (SerialKind × Nat))
  | 0, total, acc => if total < stop then none else some acc
  | fuel + 1, total, acc =>
    if total < stop then do
      let piece := key_record.drop (offset + total - 1)
      let serial_type_varint ← Varint.from_data piece
      let st ← SQLiteSerialType.decode serial_type_varint.value
      parseKeyLoop key_record offset stop fuel (total + serial_type_varint.bytes_length)
        (acc ++ [st])
    else some acc

/-- Any two sufficient fuels give `parseKeyLoop` the same result: the
countdown is only a bound on the loop, not part of its semantics. -/
theorem parseKeyLoop_fuel_irrelevant (key_record : List Nat) (offset stop : Nat) :
    ∀ fuel fuel' total acc, stop - total < fuel → stop - total < fuel' →
      parseKeyLoop key_record offset stop fuel total acc =
        parseKeyLoop key_record offset stop fuel' total acc := by
  intro fuel
  induction fuel with
  | zero => intro fuel' total acc h _; omega
  | succ n ih =>
    intro fuel' total acc h h'
    by_cases hguard : total < stop
    · obtain ⟨n', rfl⟩ : ∃ n', fuel' = n' + 1 := ⟨fuel' - 1, by omega⟩
      simp only [parseKeyLoop, if_pos hguard]
      cases hv : Varint.from_data (key_record.drop (offset + total - 1)) with
      | none => rfl
      | some v =>
        simp only [Option.bind_eq_bind', Option.some_bind']
        cases hst : SQLiteSerialType.decode v.value with
        | none => rfl
        | some st =>
          simp only [Option.bind_eq_bind', Option.some_bind']
          have hpos := Varint.from_data_pos hv
          exact ih n' (total + v.bytes_length) (acc ++ [st]) (by omega) (by omega)
    · cases fuel' with
      | zero => simp only [parseKeyLoop, if_neg hguard]
      | succ n' => simp only [parseKeyLoop, if_neg hguard]

/-- `_parse_key_record` (`src/app/btree.py`): decode the header-size
varint, run the serial-type loop, then — with the offset reset to zero —
slice three columns: a discarded first slice, the key bytes, and the
big-endian rowid. -/
def parse_key_record (key_record : List Nat) : Option (List Nat × Nat) := do
  let record_header ← Varint.from_data key_record
  let serial_types ← parseKeyLoop key_record record_header.bytes_length
    record_header.value (record_header.value + 1) 0 []
  let st0 ← serial_types[0]?
  let st1 ← serial_types[1]?
  let st2 ← serial_types[2]?
  let key := pySlice key_record st0.2 (st0.2 + st1.2)
  let rowid := bytesToNat (pySlice key_record (st0.2 + st1.2) (st0.2 + st1.2 + st2.2))
  pure (key, rowid)

/-- One leaf-index cell as `IndexSearcher.visit_leaf` reads it: seek to the
cell in the file, stream-read the payload-size varint, read the payload and
parse it as a key record. -/
def IndexSearcher.readLeafCell (db : Database) (page : Page) (cell_pointer : Nat) :
    Option (List Nat × Nat) := do
  let pos := db.page_size * page.page_number + cell_pointer
  let payload_size ← Varint.from_data (db.file.drop pos)
  parse_key_record
    (pySlice db.file (pos + payload_size.bytes_length)
      (pos + payload_size.bytes_length + payload_size.value))

/-- One interior-index cell as `IndexSearcher.visit_interior` and
`choose_paths` read it: like a leaf cell, after `f.read(4)` skips the
child pointer. -/
def IndexSearcher.readInteriorCell (db : Database) (page : Page) (cell_pointer : Nat) :
    Option (List Nat × Nat) := do
  let pos := db.page_size * page.page_number + cell_pointer + 4
  let payload_size ← Varint.from_data (db.file.drop pos)
  parse_key_record
    (pySlice db.file (pos + payload_size.bytes_length)
      (pos + payload_size.bytes_length + payload_size.value))

/-- The cell loop of `IndexSearcher.visit_leaf`: append `(key, rowid)` when
`key == search_key`; stop once `key > search_key` (cells are sorted). -/
def IndexSearcher.visitLeafGo (db : Database) (search_key : List Nat) (page : Page) :
    List Nat → List (List Nat × Nat) → Option (List (List Nat × Nat))
  | [], records => some records
  | cell_pointer :: rest, records => do
    let e ← IndexSearcher.readLeafCell db page cell_pointer
    let records2 := if e.1 = search_key then records ++ [e] else records
    if bytesLt search_key e.1 then some records2
    else IndexSearcher.visitLeafGo db search_key page rest records2

/-- `IndexSearcher.visit_leaf` (`src/app/btree.py`). -/
def IndexSearcher.visit_leaf (db : Database) (search_key : List Nat) (page : Page) :
    Option (List (List Nat × Nat)) :=
  IndexSearcher.visitLeafGo db search_key page page.cell_pointers []

/-- The read loop shared by `IndexSearcher.visit_interior` and
`choose_paths`: the `(key, rowid)` of every interior cell, in cell order. -/
def IndexSearcher.readInteriorCells (db : Database) (page : Page) :
    List Nat → Option (List (List Nat × Nat))
  | [] => some []
  | cell_pointer :: rest => do
    let e ← IndexSearcher.readInteriorCell db page cell_pointer
    let es ← IndexSearcher.readInteriorCells db page rest
    pure (e :: es)

/-- The match loop of `IndexSearcher.visit_interior`: collect entries with
equal keys; stop at the first greater key. -/
def interiorSweep (search_key : List Nat) :
    List (List Nat × Nat) → List (List Nat × Nat) → List (List Nat × Nat)
  | [], acc => acc
  | e :: rest, acc =>
    if e.1 = search_key then interiorSweep search_key rest (acc ++ [e])
    else if bytesLt search_key e.1 then acc
    else interiorSweep search_key rest acc

/-- `IndexSearcher.visit_interior` (`src/app/btree.py`). -/
def IndexSearcher.visit_interior (db : Database) (search_key : List Nat) (page : Page) :
    Option (List (List Nat × Nat)) := do
  let entries ← IndexSearcher.readInteriorCells db page page.cell_pointers
  pure (interiorSweep search_key entries [])

/-- The sweep of `choose_paths` after its two bounds checks: append `i`
whenever `keys[i] == K`; at the first `keys[i] > K` append `i` and stop;
append the right-most sentinel when no greater key was found. -/
def sweepPathsGo (search_key : List Nat) : List (List Nat) → Nat → List Int → List Int
  | [], _, paths => paths ++ [-1]
  | key :: rest, i, paths =>
    if bytesLt search_key key then paths ++ [(i : Int)]
    else if key = search_key then sweepPathsGo search_key rest (i + 1) (paths ++ [(i : Int)])
    else sweepPathsGo search_key rest (i + 1) paths

/-- `IndexSearcher.choose_paths` (`src/app/btree.py`): read every interior
cell's key; `[0]` when the search key is below the first key (`keys[0]`,
raising on an empty page), `[-1]` when above the last, otherwise the
sweep. -/
def IndexSearcher.choose_paths (db : Database) (search_key : List Nat) (page : Page) :
    Option (List Int) := do
  let entries ← IndexSearcher.readInteriorCells db page page.cell_pointers
  let keys := entries.map Prod.fst
  let k0 ← keys[0]?
  let klast ← keys.getLast?
  if bytesLt search_key k0 then pure [0]
  else if bytesLt klast search_key then pure [-1]
  else pure (sweepPathsGo search_key keys 0 [])

/-- `IndexSearcher` as a `BTreeWalker` over its database and search key.
Its `visit_interior` always returns a list (never `None`), and Python's
truthiness for a list is nonemptiness. -/
def IndexSearcher.walker (db : Database) (search_key : List Nat) :
    BTreeWalker (List (List Nat × Nat)) :=
  { visit_leaf := IndexSearcher.visit_leaf db search_key
    visit_interior := fun p => (IndexSearcher.visit_interior db search_key p).map some
    choose_paths := IndexSearcher.choose_paths db search_key
    truthy := fun l => !l.isEmpty }

/-- Resolution of one `choose_paths` index inside `search_index`'s loop:
`-1` requires a truthy right-most pointer (else `ValueError`); any other
index selects that cell and reads its 4-byte left-child pointer from the
file. -/
def resolveChild (db : Database) (page : Page) (child_idx : Int) : Option Page :=
  if child_idx = -1 then
    match page.rightmost_pointer with
    | some rm => if rm ≠ 0 then Page.get_page db ((rm : Int) - 1) else none
    | none => none
  else do
    let cell_pointer ← pyIndex page.cell_pointers child_idx
    let pos := db.page_size * page.page_number + cell_pointer
    let left_child_pointer := bytesToNat (pySlice db.file pos (pos + 4))
    Page.get_page db ((left_child_pointer : Int) - 1)

/-- The recursion of `search_index` over the chosen child indices, in
order, concatenating the yields. -/
def searchChildren {T : Type} (db : Database) (step : Page → Option (List T))
    (page : Page) : List Int → Option (List T)
  | [] => some []
  | child_idx :: rest => do
    let child_page ← resolveChild db page child_idx
    let l ← step child_page
    let ls ← searchChildren db step page rest
    pure (l ++ ls)

/-- `search_index` (`src/app/page.py`): a leaf index page yields
`visit_leaf`; otherwise yield `visit_interior`'s result when truthy
(`if result := walker.visit_interior(page):`), then recurse into each
child selected by `choose_paths`. -/
def search_index {T : Type} (db : Database) (w : BTreeWalker T) :
    Nat → Page → Option (List T)
  | 0 => fun _ => none
  | fuel + 1 => fun page =>
    if page.type? = some PageType.leafIndex then do
      let r ← w.visit_leaf page
      pure [r]
    else do
      let ir ← w.visit_interior page
      let pre := match ir with
        | some t => if w.truthy t then [t] else []
        | none => []
      let child_idxs ← w.choose_paths page
      let rest ← searchChildren db (fun p => search_index db w fuel p) page child_idxs
      pure (pre ++ rest)

/-- The entries stored in a leaf index page, via the same per-cell reads as
`visit_leaf` but with no filtering and no early stop. -/
def storedLeafEntries (db : Database) (page : Page) :
    List Nat → Option (List (List Nat × Nat))
  | [] => some []
  | cell_pointer :: rest => do
    let e ← IndexSearcher.readLeafCell db page cell_pointer
    let es ← storedLeafEntries db page rest
    pure (e :: es)

/-- The in-order interleaving for `storedEntries` on an interior page:
each cell's subtree (through its left-child pointer, read from the file
exactly as `search_index` reads it), then the cell's own entry. -/
def storedEntriesChildren (db : Database)
    (step : Page → Option (List (List Nat × Nat))) (page : Page) :
    List Nat → Option (List (List Nat × Nat))
  | [] => some []
  | cell_pointer :: rest => do
    let e ← IndexSearcher.readInteriorCell db page cell_pointer
    let pos := db.page_size * page.page_number + cell_pointer
    let left_child_pointer := bytesToNat (pySlice db.file pos (pos + 4))
    let child ← Page.get_page db ((left_child_pointer : Int) - 1)
    let sub ← step child
    let ls ← storedEntriesChildren db step page rest
    pure (sub ++ e :: ls)

/-- The `(key, rowid)` entries stored under an index page, in in-order
traversal (for a well-formed index tree this sequence is ascending by
key): a leaf's cells in cell order; for an interior page each cell's
subtree then the cell's own entry, and finally the right-most subtree (a
well-formed interior index page carries a truthy right-most pointer). -/
def storedEntries (db : Database) : Nat → Page → Option (List (List Nat × Nat))
  | 0 => fun _ => none
  | fuel + 1 => fun page =>
    if page.type? = some PageType.leafIndex then
      storedLeafEntries db page page.cell_pointers
    else do
      let groups ← storedEntriesChildren db (fun p => storedEntries db fuel p)
        page page.cell_pointers
      let rmList ←
        match page.rightmost_pointer with
        | some rm =>
          if rm ≠ 0 then do
            let rp ← Page.get_page db ((rm : Int) - 1)
            storedEntries db fuel rp
          else none
        | none => none
      pure (groups ++ rmList)

/-! ## C3: `choose_paths` -/

/-- The indices of every key equal to the search key, in left-to-right
order (the first component of the claim's expected path list). -/
def equalKeyIdxs (search_key : List Nat) : List (List Nat) → Nat → List Int
  | [], _ => []
  | key :: rest, i =>
    if key = search_key then (i : Int) :: equalKeyIdxs search_key rest (i + 1)
    else equalKeyIdxs search_key rest (i + 1)

/-- The index of the first key greater than the search key, or the
right-most sentinel `-1` when no greater key exists (the second component
of the claim's expected path list). -/
def firstGreaterIdx (search_key : List Nat) : List (List Nat) → Nat → List Int
  | [], _ => [-1]
  | key :: rest, i =>
    if bytesLt search_key key then [(i : Int)]
    else firstGreaterIdx search_key rest (i + 1)

/-- The paths the claim specifies for `choose_paths` on keys sorted
ascending: `[0]` below the first key, `[-1]` above the last, and otherwise
every equal key's index followed by the first greater key's index or the
right-most sentinel. -/
def chosenPathsSpec (search_key : List Nat) (keys : List (List Nat)) : List Int :=
  if bytesLt search_key (keys.headD []) then [0]
  else if bytesLt (keys.getLastD []) search_key then [-1]
  else equalKeyIdxs search_key keys 0 ++ firstGreaterIdx search_key keys 0

theorem equalKeyIdxs_eq_nil (search_key : List Nat) :
    ∀ keys i, (∀ k ∈ keys, k ≠ search_key) → equalKeyIdxs search_key keys i = [] := by
  intro keys
  induction keys with
  | nil => intro i _; rfl
  | cons key rest ih =>
    intro i h
    simp only [equalKeyIdxs, if_neg (h key (by simp))]
    exact ih (i + 1) fun k hk => h k (by simp [hk])

/-- On keys sorted ascending, the sweep of `choose_paths` produces exactly
the equal-key indices followed by the first-greater index (or `-1`). -/
theorem sweepPathsGo_spec (search_key : List Nat) :
    ∀ keys i paths, List.Pairwise (fun a b => bytesLt b a = false) keys →
      sweepPathsGo search_key keys i paths =
        paths ++ equalKeyIdxs search_key keys i ++ firstGreaterIdx search_key keys i := by
  intro keys
  induction keys with
  | nil => intro i paths _; simp [sweepPathsGo, equalKeyIdxs, firstGreaterIdx]
  | cons key rest ih =>
    intro i paths hsorted
    rw [List.pairwise_cons] at hsorted
    obtain ⟨hhead, htail⟩ := hsorted
    by_cases hlt : bytesLt search_key key = true
    · have hkeyne : key ≠ search_key := by
        intro heq
        subst heq
        simp [bytesLt_irrefl] at hlt
      have hrestne : ∀ k ∈ rest, k ≠ search_key := by
        intro k hk heq
        subst heq
        exact absurd hlt (by simp [hhead k hk])
      simp only [sweepPathsGo, if_pos hlt, equalKeyIdxs, if_neg hkeyne,
        firstGreaterIdx, equalKeyIdxs_eq_nil search_key rest (i + 1) hrestne]
      simp
    · rw [Bool.not_eq_true] at hlt
      by_cases heq : key = search_key
      · simp only [sweepPathsGo, hlt, Bool.false_eq_true, if_false, if_pos heq,
          equalKeyIdxs, firstGreaterIdx]
        rw [ih (i + 1) (paths ++ [(i : Int)]) htail]
        simp
      · simp only [sweepPathsGo, hlt, Bool.false_eq_true, if_false, if_neg heq,
          equalKeyIdxs, firstGreaterIdx]
        exact ih (i + 1) paths htail

/-- C3. On an interior index page whose keys (as `choose_paths` itself
reads them) are sorted ascending, `choose_paths` returns exactly the list
the claim specifies: `[0]` when the search key is below the first key,
`[-1]` when above the last, and otherwise the index of every cell whose
key equals the search key in left-to-right order, followed by the index of
the first cell with a greater key, or the right-most sentinel when no
greater key exists. -/
theorem c3_choose_paths (db : Database) (search_key : List Nat) (page : Page)
    (entries : List (List Nat × Nat))
    (hread : IndexSearcher.readInteriorCells db page page.cell_pointers = some entries)
    (hne : entries ≠ [])
    (hsorted : List.Pairwise (fun a b => bytesLt b a = false) (entries.map Prod.fst)) :
    IndexSearcher.choose_paths db search_key page =
      some (chosenPathsSpec search_key (entries.map Prod.fst)) := by
  unfold IndexSearcher.choose_paths
  rw [hread]
  simp only [Option.bind_eq_bind', Option.some_bind']
  cases hk : entries.map Prod.fst with
  | nil => exact absurd (List.map_eq_nil_iff.mp hk) hne
  | cons k0 ks =>
    rw [hk] at hsorted
    obtain ⟨klast, hklast⟩ :=
      Option.isSome_iff_exists.mp (List.getLast?_isSome.mpr (List.cons_ne_nil k0 ks))
    have hkld : (k0 :: ks).getLastD [] = klast := by
      rw [List.getLastD_eq_getLast?, hklast]
      rfl
    simp only [List.getElem?_cons_zero, hklast, Option.bind_eq_bind', Option.some_bind']
    unfold chosenPathsSpec
    simp only [List.headD_cons, hkld]
    by_cases h1 : bytesLt search_key k0 = true
    · rw [if_pos h1, if_pos h1]
      rfl
    · rw [Bool.not_eq_true] at h1
      simp only [h1, Bool.false_eq_true, if_false]
      by_cases h2 : bytesLt klast search_key = true
      · rw [if_pos h2, if_pos h2]
        rfl
      · rw [Bool.not_eq_true] at h2
        simp only [h2, Bool.false_eq_true, if_false]
        rw [sweepPathsGo_spec search_key (k0 :: ks) 0 [] hsorted]
        simp

/-- Concrete interior index page for the C3/C4 setup: two cells whose key
records carry keys "ab" and "cd" with rowids 7 and 8; both left-child
pointers name page 9 (1-based) and the right-most pointer is 7. -/
def c3pageData : List Nat :=
  padTo [2, 0, 0, 0, 2, 0, 0, 0, 0, 0, 0, 7, 0, 20, 0, 31, 0, 0, 0, 0,
         0, 0, 0, 9, 6, 3, 17, 1, 97, 98, 7,
         0, 0, 0, 9, 6, 3, 17, 1, 99, 100, 8] 64

def c3page : Page :=
  { data := c3pageData, page_number := 1 }

def c3db : Database :=
  { file := padTo (List.replicate 16 0 ++ [0, 64]) 64 ++ c3pageData }

/-- Witness for `c3_choose_paths`: searching the concrete page above for
key "ab" selects the equal cell 0 and then the first greater cell 1. -/
theorem c3_choose_paths_witness :
    IndexSearcher.readInteriorCells c3db c3page c3page.cell_pointers =
        some [([97, 98], 7), ([99, 100], 8)] ∧
      IndexSearcher.choose_paths c3db [97, 98] c3page =
        some (chosenPathsSpec [97, 98] [[97, 98], [99, 100]]) ∧
      chosenPathsSpec [97, 98] [[97, 98], [99, 100]] = [0, 1] := by
  refine ⟨by decide, ?_, by decide⟩
  exact c3_choose_paths c3db [97, 98] c3page [([97, 98], 7), ([99, 100], 8)]
    (by decide) (by decide) (by decide)

/-! ## C4: index search soundness and completeness -/

/-- `a ≤ b` on the keys of two index entries (negation of Python's
`b[0] < a[0]` on bytes). -/
def entryLe (a b : List Nat × Nat) : Prop := bytesLt b.1 a.1 = false

instance : DecidableRel entryLe := fun _ _ => by unfold entryLe; infer_instance

/-- The leaf sweep appends only entries whose key equals the search key. -/
theorem visitLeafGo_sound (db : Database) (search_key : List Nat) (page : Page) :
    ∀ cps acc res, IndexSearcher.visitLeafGo db search_key page cps acc = some res →
      (∀ e ∈ acc, e.1 = search_key) → ∀ e ∈ res, e.1 = search_key := by
  intro cps
  induction cps with
  | nil =>
    intro acc res h hacc
    cases h
    exact hacc
  | cons cp rest ih =>
    intro acc res h hacc
    simp only [IndexSearcher.visitLeafGo, Option.bind_eq_bind', Option.bind_eq_some'] at h
    obtain ⟨e0, he0, hres⟩ := h
    have hacc2 : ∀ e ∈ (if e0.1 = search_key then acc ++ [e0] else acc), e.1 = search_key := by
      split
      · rename_i heq
        intro e he
        rcases List.mem_append.mp he with h1 | h1
        · exact hacc e h1
        · rw [List.mem_singleton.mp h1]
          exact heq
      · exact hacc
    split at hres
    · cases hres
      exact hacc2
    · exact ih _ res hres hacc2

/-- The interior sweep appends only entries whose key equals the search
key. -/
theorem interiorSweep_sound (search_key : List Nat) :
    ∀ entries acc, (∀ e ∈ acc, e.1 = search_key) →
      ∀ e ∈ interiorSweep search_key entries acc, e.1 = search_key := by
  intro entries
  induction entries with
  | nil => intro acc hacc; exact hacc
  | cons e0 rest ih =>
    intro acc hacc
    simp only [interiorSweep]
    split
    · rename_i heq
      refine ih _ ?_
      intro e he
      rcases List.mem_append.mp he with h1 | h1
      · exact hacc e h1
      · rw [List.mem_singleton.mp h1]
        exact heq
    · split
      · exact hacc
      · exact ih _ hacc

/-- No entry yielded by `search_index` with `IndexSearcher` has a key
different from the search key: both the leaf and the interior sweeps
append on equality only. -/
theorem search_index_sound (db : Database) (search_key : List Nat) :
    ∀ fuel page out,
      search_index db (IndexSearcher.walker db search_key) fuel page = some out →
      ∀ e ∈ out.flatten, e.1 = search_key := by
  intro fuel
  induction fuel with
  | zero => intro page out h; simp [search_index] at h
  | succ fuel ih =>
    intro page out h
    simp only [search_index] at h
    split at h
    · simp only [IndexSearcher.walker, IndexSearcher.visit_leaf, Option.bind_eq_bind',
        Option.pure_def, Option.bind_eq_some'] at h
      obtain ⟨r, hr, hout⟩ := h
      cases hout
      intro e he
      simp only [List.flatten, List.append_nil] at he
      exact visitLeafGo_sound db search_key page page.cell_pointers [] r hr
        (by intro e he2; cases he2) e (by simpa using he)
    · simp only [IndexSearcher.walker, IndexSearcher.visit_interior, Option.map_eq_map,
        Option.bind_eq_bind', Option.pure_def, Option.bind_eq_some',
        Option.map_eq_some'] at h
      obtain ⟨irOpt, ⟨sweep, ⟨entriesI, hentriesI, hsweep⟩, hirOpt⟩, paths, hpaths, restL,
        hrestL, hout⟩ := h
      cases hout
      subst hirOpt
      cases hsweep
      have hpre : ∀ e ∈ (match some (interiorSweep search_key entriesI []) with
          | some t => if (IndexSearcher.walker db search_key).truthy t then [t] else []
          | none => ([] : List (List (List Nat × Nat)))).flatten, e.1 = search_key := by
        simp only [IndexSearcher.walker]
        split
        · intro e he
          simp only [List.flatten, List.append_nil] at he
          exact interiorSweep_sound search_key entriesI [] (by intro e h2; cases h2) e
            (by simpa using he)
        · intro e he
          cases he
      have hchildren : ∀ idxs restX,
          searchChildren db
            (fun p => search_index db (IndexSearcher.walker db search_key) fuel p)
            page idxs = some restX →
          ∀ e ∈ restX.flatten, e.1 = search_key := by
        intro idxs
        induction idxs with
        | nil =>
          intro restX hx e he
          cases hx
          cases he
        | cons idx irest ihx =>
          intro restX hx e he
          simp only [searchChildren, Option.bind_eq_bind', Option.pure_def,
            Option.bind_eq_some'] at hx
          obtain ⟨cpage, hcpage, l, hl, ls, hls, hrx⟩ := hx
          cases hrx
          rw [List.flatten_append] at he
          rcases List.mem_append.mp he with h1 | h1
          · exact ih cpage l hl e h1
          · exact ihx ls hls e h1
      intro e he
      rw [List.flatten_append] at he
      rcases List.mem_append.mp he with h1 | h1
      · exact hpre e h1
      · exact hchildren paths restL hrestL e h1

/-- The left-child page fetched for a given interior cell, as both
`search_index` (`resolveChild`) and `storedEntriesChildren` compute it:
the 4-byte big-endian pointer at the cell's file position. -/
def indexChildPage (db : Database) (page : Page) (cell_pointer : Nat) : Option Page :=
  Page.get_page db
    ((bytesToNat (pySlice db.file (db.page_size * page.page_number + cell_pointer)
        (db.page_size * page.page_number + cell_pointer + 4)) : Int) - 1)

/-- Structure of a successful `storedEntriesChildren` run: per cell, its
own entry `e`, its child page and that child's stored list `sub`, with the
flattened result interleaving them in order. -/
inductive IndexDecomp (db : Database) (fuel : Nat) (page : Page) :
    List Nat → List (List Nat × Nat) → List (List (List Nat × Nat)) →
      List (List Nat × Nat) → Prop
  | nil : IndexDecomp db fuel page [] [] [] []
  | cons {cp : Nat} {rest : List Nat} {e : List Nat × Nat} {child : Page}
      {sub : List (List Nat × Nat)} {entries : List (List Nat × Nat)}
      {subs : List (List (List Nat × Nat))} {g : List (List Nat × Nat)} :
      IndexSearcher.readInteriorCell db page cp = some e →
      indexChildPage db page cp = some child →
      storedEntries db fuel child = some sub →
      IndexDecomp db fuel page rest entries subs g →
      IndexDecomp db fuel page (cp :: rest) (e :: entries) (sub :: subs) (sub ++ e :: g)

theorem storedEntriesChildren_decomp (db : Database) (fuel : Nat) (page : Page) :
    ∀ cps g,
      storedEntriesChildren db (fun p => storedEntries db fuel p) page cps = some g →
      ∃ entries subs, IndexDecomp db fuel page cps entries subs g := by
  intro cps
  induction cps with
  | nil =>
    intro g h
    cases h
    exact ⟨[], [], IndexDecomp.nil⟩
  | cons cp rest ih =>
    intro g h
    simp only [storedEntriesChildren, Option.bind_eq_bind', Option.pure_def,
      Option.bind_eq_some'] at h
    obtain ⟨e, he, child, hchild, sub, hsub, ls, hls, hg⟩ := h
    obtain ⟨entries, subs, hdec⟩ := ih ls hls
    cases hg
    exact ⟨e :: entries, sub :: subs, IndexDecomp.cons he hchild hsub hdec⟩

theorem IndexDecomp.reads {db : Database} {fuel : Nat} {page : Page} :
    ∀ {cps entries subs g}, IndexDecomp db fuel page cps entries subs g →
      IndexSearcher.readInteriorCells db page cps = some entries := by
  intro cps entries subs g h
  induction h with
  | nil => rfl
  | cons he hchild hsub _ ih =>
    simp only [IndexSearcher.readInteriorCells, Option.bind_eq_bind', Option.pure_def,
      Option.bind_eq_some']
    exact ⟨_, he, _, ih, rfl⟩

theorem IndexDecomp.lengths {db : Database} {fuel : Nat} {page : Page} :
    ∀ {cps entries subs g}, IndexDecomp db fuel page cps entries subs g →
      entries.length = cps.length ∧ subs.length = cps.length := by
  intro cps entries subs g h
  induction h with
  | nil => exact ⟨rfl, rfl⟩
  | cons _ _ _ _ ih => simp [ih.1, ih.2]

theorem IndexDecomp.mem_entries_of_mem {db : Database} {fuel : Nat} {page : Page} :
    ∀ {cps entries subs g}, IndexDecomp db fuel page cps entries subs g →
      ∀ e ∈ g, e ∈ entries ∨ ∃ (i : Nat) (sub : List (List Nat × Nat)),
        subs[i]? = some sub ∧ e ∈ sub := by
  intro cps entries subs g h
  induction h with
  | nil => intro e he; cases he
  | cons hread hchild hsub hdec ih =>
    intro e he
    rcases List.mem_append.mp he with h1 | h1
    · exact Or.inr ⟨0, _, List.getElem?_cons_zero, h1⟩
    · rcases List.mem_cons.mp h1 with h2 | h2
      · exact Or.inl (h2 ▸ List.mem_cons_self _ _)
      · rcases ih e h2 with h3 | ⟨i, sub2, hsub2, hmem⟩
        · exact Or.inl (List.mem_cons_of_mem _ h3)
        · exact Or.inr ⟨i + 1, sub2, by simpa using hsub2, hmem⟩

theorem IndexDecomp.aligned {db : Database} {fuel : Nat} {page : Page} :
    ∀ {cps entries subs g}, IndexDecomp db fuel page cps entries subs g →
      ∀ (i : Nat) (sub : List (List Nat × Nat)), subs[i]? = some sub →
        ∃ cp e child, cps[i]? = some cp ∧ entries[i]? = some e ∧
          indexChildPage db page cp = some child ∧
          storedEntries db fuel child = some sub := by
  intro cps entries subs g h
  induction h with
  | nil => intro i sub h2; simp at h2
  | cons hread hchild hsub hdec ih =>
    intro i sub h2
    cases i with
    | zero =>
      simp only [List.getElem?_cons_zero] at h2
      cases h2
      exact ⟨_, _, _, List.getElem?_cons_zero, List.getElem?_cons_zero, hchild, hsub⟩
    | succ i =>
      simp only [List.getElem?_cons_succ] at h2
      obtain ⟨cp2, e2, child2, hcp2, he2, hchild2, hsub2⟩ := ih i sub h2
      exact ⟨cp2, e2, child2, by simpa using hcp2, by simpa using he2, hchild2, hsub2⟩

theorem IndexDecomp.entries_mem_g {db : Database} {fuel : Nat} {page : Page} :
    ∀ {cps entries subs g}, IndexDecomp db fuel page cps entries subs g →
      ∀ e ∈ entries, e ∈ g := by
  intro cps entries subs g h
  induction h with
  | nil => intro e he; cases he
  | cons hread hchild hsub hdec ih =>
    intro e he
    rcases List.mem_cons.mp he with h2 | h2
    · exact List.mem_append.mpr (Or.inr (h2 ▸ List.mem_cons_self _ _))
    · exact List.mem_append.mpr (Or.inr (List.mem_cons_of_mem _ (ih e h2)))

theorem IndexDecomp.entries_pairwise {db : Database} {fuel : Nat} {page : Page} :
    ∀ {cps entries subs g}, IndexDecomp db fuel page cps entries subs g →
      List.Pairwise entryLe g → List.Pairwise entryLe entries := by
  intro cps entries subs g h
  induction h with
  | nil => intro _; exact List.Pairwise.nil
  | cons hread hchild hsub hdec ih =>
    intro hp
    rw [List.pairwise_append] at hp
    obtain ⟨_, hp2, _⟩ := hp
    rw [List.pairwise_cons] at hp2
    obtain ⟨hhead, htail⟩ := hp2
    rw [List.pairwise_cons]
    refine ⟨?_, ih htail⟩
    intro e he
    exact hhead e (hdec.entries_mem_g e he)

theorem IndexDecomp.subs_pairwise {db : Database} {fuel : Nat} {page : Page} :
    ∀ {cps entries subs g}, IndexDecomp db fuel page cps entries subs g →
      List.Pairwise entryLe g →
      ∀ (i : Nat) (sub : List (List Nat × Nat)), subs[i]? = some sub →
        List.Pairwise entryLe sub := by
  intro cps entries subs g h
  induction h with
  | nil => intro _ i sub h2; simp at h2
  | cons hread hchild hsub hdec ih =>
    intro hp i sub h2
    rw [List.pairwise_append] at hp
    obtain ⟨hp1, hp2, _⟩ := hp
    cases i with
    | zero =>
      simp only [List.getElem?_cons_zero] at h2
      cases h2
      exact hp1
    | succ i =>
      simp only [List.getElem?_cons_succ] at h2
      exact ih (List.pairwise_cons.mp hp2).2 i sub h2

theorem IndexDecomp.subs_mem_g {db : Database} {fuel : Nat} {page : Page} :
    ∀ {cps entries subs g}, IndexDecomp db fuel page cps entries subs g →
      ∀ (i : Nat) (sub : List (List Nat × Nat)), subs[i]? = some sub →
        ∀ e ∈ sub, e ∈ g := by
  intro cps entries subs g h
  induction h with
  | nil => intro i sub h2; simp at h2
  | cons hread hchild hsub hdec ih =>
    intro i sub h2 e he
    cases i with
    | zero =>
      simp only [List.getElem?_cons_zero] at h2
      cases h2
      exact List.mem_append.mpr (Or.inl he)
    | succ i =>
      simp only [List.getElem?_cons_succ] at h2
      exact List.mem_append.mpr (Or.inr (List.mem_cons_of_mem _ (ih i sub h2 e he)))

/-- Bounds for subtree entries: an entry stored under cell `i`'s left
child is at most cell `i`'s key and at least every earlier cell's key
(because the in-order stored sequence is sorted). -/
theorem IndexDecomp.sub_bounds {db : Database} {fuel : Nat} {page : Page} :
    ∀ {cps entries subs g}, IndexDecomp db fuel page cps entries subs g →
      List.Pairwise entryLe g →
      ∀ (i : Nat) (sub : List (List Nat × Nat)) e', subs[i]? = some sub → e' ∈ sub →
        (∀ ei, entries[i]? = some ei → entryLe e' ei) ∧
        (∀ j ej, j < i → entries[j]? = some ej → entryLe ej e') := by
  intro cps entries subs g h
  induction h with
  | nil => intro _ i sub e' h2; simp at h2
  | cons hread hchild hsub hdec ih =>
    intro hp i sub e' h2 hmem
    rw [List.pairwise_append] at hp
    obtain ⟨hp1, hp2, hp3⟩ := hp
    cases i with
    | zero =>
      simp only [List.getElem?_cons_zero] at h2
      cases h2
      constructor
      · intro ei hei
        simp only [List.getElem?_cons_zero] at hei
        cases hei
        exact hp3 e' hmem _ (List.mem_cons_self _ _)
      · intro j ej hj _
        omega
    | succ i =>
      simp only [List.getElem?_cons_succ] at h2
      have hrec := ih (List.pairwise_cons.mp hp2).2 i sub e' h2 hmem
      constructor
      · intro ei hei
        simp only [List.getElem?_cons_succ] at hei
        exact hrec.1 ei hei
      · intro j ej hj hej
        cases j with
        | zero =>
          simp only [List.getElem?_cons_zero] at hej
          cases hej
          exact (List.pairwise_cons.mp hp2).1 e' (hdec.subs_mem_g i sub h2 e' hmem)
        | succ j =>
          simp only [List.getElem?_cons_succ] at hej
          exact hrec.2 j ej (by omega) hej

theorem equalKeyIdxs_mem (search_key : List Nat) :
    ∀ (ks : List (List Nat)) (i0 i : Nat) (ki : List Nat), ks[i]? = some ki →
      ki = search_key → ((i0 + i : Nat) : Int) ∈ equalKeyIdxs search_key ks i0 := by
  intro ks
  induction ks with
  | nil => intro i0 i ki h _; simp at h
  | cons key rest ih =>
    intro i0 i ki h heq
    cases i with
    | zero =>
      simp only [List.getElem?_cons_zero] at h
      cases h
      simp only [equalKeyIdxs, if_pos heq]
      simp
    | succ i =>
      simp only [List.getElem?_cons_succ] at h
      have := ih (i0 + 1) i ki h heq
      have harith : (i0 + 1) + i = i0 + (i + 1) := by omega
      rw [harith] at this
      simp only [equalKeyIdxs]
      split
      · exact List.mem_cons_of_mem _ this
      · exact this

theorem firstGreaterIdx_mem (search_key : List Nat) :
    ∀ (ks : List (List Nat)) (i0 i : Nat) (ki : List Nat), ks[i]? = some ki →
      bytesLt search_key ki = true →
      (∀ (j : Nat) (kj : List Nat), j < i → ks[j]? = some kj →
        bytesLt search_key kj = false) →
      ((i0 + i : Nat) : Int) ∈ firstGreaterIdx search_key ks i0 := by
  intro ks
  induction ks with
  | nil => intro i0 i ki h _ _; simp at h
  | cons key rest ih =>
    intro i0 i ki h hgt hbefore
    cases i with
    | zero =>
      simp only [List.getElem?_cons_zero] at h
      cases h
      simp only [firstGreaterIdx, if_pos hgt]
      simp
    | succ i =>
      simp only [List.getElem?_cons_succ] at h
      have hhead : bytesLt search_key key = false :=
        hbefore 0 key (by omega) List.getElem?_cons_zero
      simp only [firstGreaterIdx, hhead, Bool.false_eq_true, if_false]
      have := ih (i0 + 1) i ki h hgt
        (fun j kj hj hkj => hbefore (j + 1) kj (by omega) (by simpa using hkj))
      have harith : (i0 + 1) + i = i0 + (i + 1) := by omega
      rw [harith] at this
      exact this

theorem firstGreaterIdx_none (search_key : List Nat) :
    ∀ (ks : List (List Nat)) (i0 : Nat),
      (∀ k ∈ ks, bytesLt search_key k = false) →
      firstGreaterIdx search_key ks i0 = [-1] := by
  intro ks
  induction ks with
  | nil => intro i0 _; rfl
  | cons key rest ih =>
    intro i0 h
    simp only [firstGreaterIdx, h key (by simp), Bool.false_eq_true, if_false]
    exact ih (i0 + 1) fun k hk => h k (by simp [hk])

/-- Covering property of `choose_paths` on sorted keys: every child slot
whose key range can contain the search key is selected. Child `i` can
contain the key only when the key is at most `keys[i]` and at least
`keys[i-1]`; the right-most child only when the key is at least every
cell key. -/
theorem choose_paths_cover (db : Database) (search_key : List Nat) (page : Page)
    (entries : List (List Nat × Nat)) (paths : List Int)
    (hread : IndexSearcher.readInteriorCells db page page.cell_pointers = some entries)
    (hpaths : IndexSearcher.choose_paths db search_key page = some paths)
    (hsorted : List.Pairwise (fun a b => bytesLt b a = false) (entries.map Prod.fst)) :
    (∀ (i : Nat) (ki : List Nat), (entries.map Prod.fst)[i]? = some ki →
      (i = 0 ∨ ∀ kp, (entries.map Prod.fst)[i - 1]? = some kp →
        bytesLt search_key kp = false) →
      bytesLt ki search_key = false → (i : Int) ∈ paths) ∧
    ((∀ k ∈ entries.map Prod.fst, bytesLt search_key k = false) → (-1 : Int) ∈ paths) := by
  unfold IndexSearcher.choose_paths at hpaths
  rw [hread] at hpaths
  simp only [Option.bind_eq_bind', Option.some_bind'] at hpaths
  cases hk : entries.map Prod.fst with
  | nil => rw [hk] at hpaths; simp at hpaths
  | cons k0 ks =>
    rw [hk] at hpaths hsorted
    obtain ⟨klast, hklast⟩ :=
      Option.isSome_iff_exists.mp (List.getLast?_isSome.mpr (List.cons_ne_nil k0 ks))
    simp only [List.getElem?_cons_zero, hklast, Option.bind_eq_bind',
      Option.some_bind'] at hpaths
    have hsortedIdx := List.pairwise_iff_getElem.mp hsorted
    have hlastIdx : (k0 :: ks)[ks.length]? = some klast := by
      rw [← hklast, List.getLast?_eq_getElem?]
      simp
    have hle_last : ∀ (i : Nat) (ki : List Nat), (k0 :: ks)[i]? = some ki →
        bytesLt klast ki = false := by
      intro i ki hki
      obtain ⟨hilen, hi⟩ := List.getElem?_eq_some.mp hki
      obtain ⟨hllen, hl⟩ := List.getElem?_eq_some.mp hlastIdx
      rcases Nat.lt_or_ge i ks.length with hlt | hge
      · have := hsortedIdx i ks.length hilen hllen hlt
        rw [hi, hl] at this
        exact this
      · have : i = ks.length := by simp at hilen; omega
        subst this
        rw [hi] at hl
        subst hl
        exact bytesLt_irrefl _
    have hk0_le : ∀ (i : Nat) (ki : List Nat), (k0 :: ks)[i]? = some ki →
        bytesLt ki k0 = false := by
      intro i ki hki
      obtain ⟨hilen, hi⟩ := List.getElem?_eq_some.mp hki
      cases i with
      | zero =>
        simp only [List.getElem?_cons_zero] at hki
        cases hki
        exact bytesLt_irrefl _
      | succ i =>
        have := hsortedIdx 0 (i + 1) (by simp) hilen (by omega)
        rw [hi] at this
        simpa using this
    by_cases h1 : bytesLt search_key k0 = true
    · rw [if_pos h1] at hpaths
      cases hpaths
      constructor
      · intro i ki hki hprev hge
        cases i with
        | zero => simp
        | succ i =>
          exfalso
          rcases hprev with hzero | hprev
          · cases hzero
          · have hilen : i + 1 < (k0 :: ks).length := (List.getElem?_eq_some.mp hki).1
            have hplen : i < (k0 :: ks).length := by omega
            have hkp : (k0 :: ks)[i]? = some (k0 :: ks)[i] := List.getElem?_eq_getElem hplen
            have hprev2 : (k0 :: ks)[i]? = some ((k0 :: ks)[i]) →
                bytesLt search_key ((k0 :: ks)[i]) = false := by
              have h := hprev ((k0 :: ks)[i])
              simpa using h
            have hit := hprev2 hkp
            have hk0kp : bytesLt (k0 :: ks)[i] k0 = false := hk0_le i _ hkp
            exact absurd (bytesLt_lt_of_lt_of_le h1 hk0kp) (by simp [hit])
      · intro hall
        exact absurd (hall k0 (by simp)) (by simp [h1])
    · rw [Bool.not_eq_true] at h1
      rw [h1] at hpaths
      simp only [Bool.false_eq_true, if_false] at hpaths
      by_cases h2 : bytesLt klast search_key = true
      · rw [if_pos h2] at hpaths
        cases hpaths
        constructor
        · intro i ki hki _ hge
          exfalso
          have hkle : bytesLt klast ki = false := hle_last i ki hki
          exact absurd (bytesLt_lt_of_lt_of_le h2 hge) (by simp [hkle])
        · intro _
          simp
      · rw [Bool.not_eq_true] at h2
        rw [h2] at hpaths
        simp only [Bool.false_eq_true, if_false] at hpaths
        cases hpaths
        rw [sweepPathsGo_spec search_key (k0 :: ks) 0 [] hsorted]
        constructor
        · intro i ki hki hprev hge
          cases hgt : bytesLt search_key ki with
          | false =>
            have heq : ki = search_key := bytesLt_antisymm hge hgt
            have := equalKeyIdxs_mem search_key (k0 :: ks) 0 i ki hki heq
            simp only [Nat.zero_add] at this
            simp [this]
          | true =>
            have hbefore : ∀ (j : Nat) (kj : List Nat), j < i →
                (k0 :: ks)[j]? = some kj → bytesLt search_key kj = false := by
              intro j kj hj hkj
              rcases hprev with hzero | hprev
              · omega
              · have hilen : i < (k0 :: ks).length := (List.getElem?_eq_some.mp hki).1
                have hplen : i - 1 < (k0 :: ks).length := by omega
                have hkp : (k0 :: ks)[i - 1]? = some (k0 :: ks)[i - 1] :=
                  List.getElem?_eq_getElem hplen
                have hkpK := hprev _ hkp
                rcases Nat.lt_or_ge j (i - 1) with hj2 | hj2
                · obtain ⟨hjlen, hjv⟩ := List.getElem?_eq_some.mp hkj
                  have hjp := hsortedIdx j (i - 1) hjlen hplen hj2
                  rw [hjv] at hjp
                  cases hx : bytesLt search_key kj with
                  | false => rfl
                  | true => exact absurd (bytesLt_lt_of_lt_of_le hx hjp) (by simp [hkpK])
                · have : j = i - 1 := by omega
                  subst this
                  rw [hkj] at hkp
                  cases hkp
                  exact hkpK
            have := firstGreaterIdx_mem search_key (k0 :: ks) 0 i ki hki hgt hbefore
            simp only [Nat.zero_add] at this
            simp [this]
        · intro hall
          rw [firstGreaterIdx_none search_key (k0 :: ks) 0 hall]
          simp

/-- Entries accumulated so far are kept by the leaf sweep. -/
theorem visitLeafGo_mono (db : Database) (search_key : List Nat) (page : Page) :
    ∀ cps acc res, IndexSearcher.visitLeafGo db search_key page cps acc = some res →
      ∀ x ∈ acc, x ∈ res := by
  intro cps
  induction cps with
  | nil =>
    intro acc res h x hx
    cases h
    exact hx
  | cons cp rest ih =>
    intro acc res h x hx
    simp only [IndexSearcher.visitLeafGo, Option.bind_eq_bind', Option.bind_eq_some'] at h
    obtain ⟨e0, he0, hres⟩ := h
    have hx2 : x ∈ (if e0.1 = search_key then acc ++ [e0] else acc) := by
      split
      · exact List.mem_append.mpr (Or.inl hx)
      · exact hx
    split at hres
    · cases hres
      exact hx2
    · exact ih _ res hres x hx2

/-- With sorted leaf entries, the leaf sweep's early stop loses nothing:
every stored entry whose key equals the search key is collected. -/
theorem visitLeafGo_complete (db : Database) (search_key : List Nat) (page : Page) :
    ∀ cps acc res entries,
      IndexSearcher.visitLeafGo db search_key page cps acc = some res →
      storedLeafEntries db page cps = some entries →
      List.Pairwise entryLe entries →
      ∀ e ∈ entries, e.1 = search_key → e ∈ res := by
  intro cps
  induction cps with
  | nil =>
    intro acc res entries _ hst _ e he
    cases hst
    cases he
  | cons cp rest ih =>
    intro acc res entries hv hst hsorted e he heK
    simp only [IndexSearcher.visitLeafGo, Option.bind_eq_bind', Option.bind_eq_some'] at hv
    obtain ⟨e0, he0, hres⟩ := hv
    simp only [storedLeafEntries, Option.bind_eq_bind', Option.pure_def,
      Option.bind_eq_some'] at hst
    obtain ⟨e0', he0', es, hes, hentries⟩ := hst
    rw [he0] at he0'
    cases he0'
    cases hentries
    rw [List.pairwise_cons] at hsorted
    obtain ⟨hhead, htail⟩ := hsorted
    rcases List.mem_cons.mp he with rfl | hein
    · have hacc2 : e ∈ acc ++ [e] :=
        List.mem_append.mpr (Or.inr (List.mem_singleton.mpr rfl))
      rw [if_pos heK] at hres
      split at hres
      · cases hres
        exact hacc2
      · exact visitLeafGo_mono db search_key page rest _ res hres e hacc2
    · split at hres
      · rename_i hbreak
        exfalso
        have h2 := hhead e hein
        unfold entryLe at h2
        rw [heK] at h2
        simp [h2] at hbreak
      · exact ih _ res es hres hes htail e hein heK

theorem interiorSweep_mono (search_key : List Nat) :
    ∀ entries acc, ∀ x ∈ acc, x ∈ interiorSweep search_key entries acc := by
  intro entries
  induction entries with
  | nil => intro acc x hx; exact hx
  | cons e0 rest ih =>
    intro acc x hx
    simp only [interiorSweep]
    split
    · exact ih _ x (List.mem_append.mpr (Or.inl hx))
    · split
      · exact hx
      · exact ih _ x hx

/-- With sorted interior entries, the interior sweep collects every entry
whose key equals the search key. -/
theorem interiorSweep_complete (search_key : List Nat) :
    ∀ entries acc, List.Pairwise entryLe entries →
      ∀ e ∈ entries, e.1 = search_key → e ∈ interiorSweep search_key entries acc := by
  intro entries
  induction entries with
  | nil => intro acc _ e he; cases he
  | cons e0 rest ih =>
    intro acc hsorted e he heK
    rw [List.pairwise_cons] at hsorted
    obtain ⟨hhead, htail⟩ := hsorted
    simp only [interiorSweep]
    rcases List.mem_cons.mp he with rfl | hein
    · rw [if_pos heK]
      exact interiorSweep_mono search_key rest _ e
        (List.mem_append.mpr (Or.inr (List.mem_singleton.mpr rfl)))
    · split
      · exact ih _ htail e hein heK
      · split
        · rename_i hne hbreak
          exfalso
          have h2 := hhead e hein
          unfold entryLe at h2
          rw [heK] at h2
          simp [h2] at hbreak
        · exact ih _ htail e hein heK

/-- Every index chosen by `choose_paths` resolves to a child whose search
results all appear in `searchChildren`'s output. -/
theorem searchChildren_member {T : Type} (db : Database) (step : Page → Option (List T))
    (page : Page) :
    ∀ idxs out, searchChildren db step page idxs = some out →
      ∀ idx ∈ idxs, ∃ cpage l, resolveChild db page idx = some cpage ∧
        step cpage = some l ∧ ∀ x ∈ l, x ∈ out := by
  intro idxs
  induction idxs with
  | nil => intro out _ idx hidx; cases hidx
  | cons idx0 rest ih =>
    intro out h idx hidx
    simp only [searchChildren, Option.bind_eq_bind', Option.pure_def,
      Option.bind_eq_some'] at h
    obtain ⟨cpage, hcpage, l, hl, ls, hls, hout⟩ := h
    cases hout
    rcases List.mem_cons.mp hidx with rfl | hin
    · exact ⟨cpage, l, hcpage, hl, fun x hx => List.mem_append.mpr (Or.inl hx)⟩
    · obtain ⟨cpage2, l2, h1, h2, h3⟩ := ih ls hls idx hin
      exact ⟨cpage2, l2, h1, h2, fun x hx => List.mem_append.mpr (Or.inr (h3 x hx))⟩

/-- For a nonnegative index, `resolveChild` selects the cell and follows
its left-child pointer — the same page `indexChildPage` names. -/
theorem resolveChild_nonneg (db : Database) (page : Page) (i : Nat) :
    resolveChild db page (i : Int) =
      page.cell_pointers[i]?.bind (indexChildPage db page) := by
  unfold resolveChild
  rw [if_neg (by omega)]
  unfold pyIndex
  rw [if_pos (by omega)]
  have : ((i : Int)).toNat = i := rfl
  rw [this]
  rfl

/-- For the sentinel `-1`, `resolveChild` requires a truthy right-most
pointer and follows it. -/
theorem resolveChild_neg_one (db : Database) (page : Page) :
    resolveChild db page (-1) =
      match page.rightmost_pointer with
      | some rm => if rm ≠ 0 then Page.get_page db ((rm : Int) - 1) else none
      | none => none := by
  unfold resolveChild
  rw [if_pos rfl]

/-- Completeness of `search_index` with `IndexSearcher`: every stored
entry whose key equals the search key is yielded, provided the stored
(in-order) entry sequence is sorted ascending by key. -/
theorem search_index_complete (db : Database) (search_key : List Nat) :
    ∀ fuel page out stored,
      search_index db (IndexSearcher.walker db search_key) fuel page = some out →
      storedEntries db fuel page = some stored →
      List.Pairwise entryLe stored →
      ∀ e ∈ stored, e.1 = search_key → e ∈ out.flatten := by
  intro fuel
  induction fuel with
  | zero => intro page out stored h; simp [search_index] at h
  | succ fuel ih =>
    intro page out stored hsearch hstored hsorted
    simp only [search_index] at hsearch
    simp only [storedEntries] at hstored
    by_cases htype : page.type? = some PageType.leafIndex
    · rw [if_pos htype] at hsearch hstored
      simp only [IndexSearcher.walker, IndexSearcher.visit_leaf, Option.bind_eq_bind',
        Option.pure_def, Option.bind_eq_some'] at hsearch
      obtain ⟨r, hr, hout⟩ := hsearch
      cases hout
      intro e he heK
      have := visitLeafGo_complete db search_key page page.cell_pointers [] r stored hr
        hstored hsorted e he heK
      simpa using this
    · rw [if_neg htype] at hsearch hstored
      simp only [IndexSearcher.walker, IndexSearcher.visit_interior, Option.map_eq_map,
        Option.bind_eq_bind', Option.pure_def, Option.bind_eq_some',
        Option.map_eq_some'] at hsearch
      obtain ⟨irOpt, ⟨sweep, ⟨entriesI, hentriesI, hsweepEq⟩, hirOpt⟩, paths, hpaths, restL,
        hrestL, hout⟩ := hsearch
      subst hirOpt
      cases hsweepEq
      cases hout
      simp only [Option.bind_eq_bind', Option.pure_def, Option.bind_eq_some'] at hstored
      obtain ⟨groups, hgroups, hrest⟩ := hstored
      obtain ⟨entries, subs, hdec⟩ := storedEntriesChildren_decomp db fuel page _ groups hgroups
      have hreads := hdec.reads
      rw [hreads] at hentriesI
      cases hentriesI
      cases hrmptr : page.rightmost_pointer with
      | none =>
        rw [hrmptr] at hrest
        simp only [Option.bind_eq_bind', Option.none_bind'] at hrest
        cases hrest
      | some rm =>
        rw [hrmptr] at hrest
        by_cases hrm0 : rm ≠ 0
        · simp only [if_pos hrm0, Option.bind_eq_bind', Option.bind_eq_some'] at hrest
          obtain ⟨rp, hrp, rmList, hrmStored, hstEq⟩ := hrest
          cases hstEq
          intro e he heK
          have hsortedApp := hsorted
          rw [List.pairwise_append] at hsortedApp
          obtain ⟨hpg, hpr, hcross⟩ := hsortedApp
          have hentriesP : List.Pairwise entryLe entriesI := hdec.entries_pairwise hpg
          have hkeysP : List.Pairwise (fun a b => bytesLt b a = false)
              (entriesI.map Prod.fst) := by
            rw [List.pairwise_map]
            exact hentriesP
          have hcover := choose_paths_cover db search_key page entriesI paths
            hreads hpaths hkeysP
          rw [List.flatten_append]
          rcases List.mem_append.mp he with hg | hrm2
          · rcases hdec.mem_entries_of_mem e hg with hInEntries | ⟨i, sub, hsub, hInSub⟩
            · have hsw : e ∈ interiorSweep search_key entriesI [] :=
                interiorSweep_complete search_key entriesI [] hentriesP e hInEntries heK
              apply List.mem_append.mpr
              left
              have hne2 : (interiorSweep search_key entriesI []).isEmpty = false := by
                cases hx : interiorSweep search_key entriesI [] with
                | nil => rw [hx] at hsw; cases hsw
                | cons a l => rfl
              simp only [IndexSearcher.walker, hne2, Bool.not_false, if_pos]
              simpa using hsw
            · obtain ⟨cp, ei, child, hcp, hei, hchildPage, hsubStored⟩ := hdec.aligned i sub hsub
              have hbounds := hdec.sub_bounds hpg i sub e hsub hInSub
              have hkeyi : (entriesI.map Prod.fst)[i]? = some ei.1 := by
                rw [List.getElem?_map, hei]
                rfl
              have hcond1 : bytesLt ei.1 search_key = false := by
                have h2 := hbounds.1 ei hei
                unfold entryLe at h2
                rw [heK] at h2
                exact h2
              have hcond2 : i = 0 ∨ ∀ kp, (entriesI.map Prod.fst)[i - 1]? = some kp →
                  bytesLt search_key kp = false := by
                cases i with
                | zero => exact Or.inl rfl
                | succ i2 =>
                  right
                  intro kp hkp
                  rw [List.getElem?_map] at hkp
                  rw [Option.map_eq_some'] at hkp
                  obtain ⟨ep, hep, hfst⟩ := hkp
                  have h2 := hbounds.2 (i2 + 1 - 1) ep (by omega) (by simpa using hep)
                  unfold entryLe at h2
                  rw [heK] at h2
                  rw [← hfst]
                  exact h2
              have hmem := hcover.1 i ei.1 hkeyi hcond2 hcond1
              obtain ⟨cpage, l, hres, hstep, hsubset⟩ :=
                searchChildren_member db _ page paths restL hrestL (i : Int) hmem
              rw [resolveChild_nonneg, hcp] at hres
              simp only [Option.some_bind'] at hres
              rw [hchildPage] at hres
              cases hres
              have hrec := ih child l sub hstep hsubStored
                (hdec.subs_pairwise hpg i sub hsub) e hInSub heK
              apply List.mem_append.mpr
              right
              obtain ⟨t, htL, het⟩ := List.mem_flatten.mp hrec
              exact List.mem_flatten.mpr ⟨t, hsubset t htL, het⟩
          · have hallle : ∀ k ∈ entriesI.map Prod.fst, bytesLt search_key k = false := by
              intro k hk
              rw [List.mem_map] at hk
              obtain ⟨ent, hent, hfst⟩ := hk
              have hentg := hdec.entries_mem_g ent hent
              have h2 := hcross ent hentg e hrm2
              unfold entryLe at h2
              rw [heK] at h2
              rw [← hfst]
              exact h2
            have hmem := hcover.2 hallle
            obtain ⟨cpage, l, hres, hstep, hsubset⟩ :=
              searchChildren_member db _ page paths restL hrestL (-1) hmem
            rw [resolveChild_neg_one, hrmptr] at hres
            simp only [if_pos hrm0] at hres
            rw [hrp] at hres
            cases hres
            have hrec := ih rp l rmList hstep hrmStored hpr e hrm2 heK
            apply List.mem_append.mpr
            right
            obtain ⟨t, htL, het⟩ := List.mem_flatten.mp hrec
            exact List.mem_flatten.mpr ⟨t, hsubset t htL, het⟩
        · simp only [if_neg hrm0, Option.bind_eq_bind', Option.none_bind'] at hrest
          cases hrest

/-- C4. On an index B-tree whose stored (in-order) entries are sorted
ascending by key, `search_index` driven by `IndexSearcher` yields every
stored `(key, rowid)` entry whose key equals the search key, and never
yields an entry with a different key: the leaf and interior sweeps append
on equality only and stop at the first greater key, and `choose_paths`
descends into every child whose key range can hold the search key. -/
theorem c4_index_search_sound_complete (db : Database) (search_key : List Nat)
    (fuel : Nat) (page : Page) (out : List (List (List Nat × Nat)))
    (stored : List (List Nat × Nat))
    (hsearch : search_index db (IndexSearcher.walker db search_key) fuel page = some out)
    (hstored : storedEntries db fuel page = some stored)
    (hsorted : List.Pairwise entryLe stored) :
    (∀ e ∈ stored, e.1 = search_key → e ∈ out.flatten) ∧
    (∀ e ∈ out.flatten, e.1 = search_key) :=
  ⟨search_index_complete db search_key fuel page out stored hsearch hstored hsorted,
   search_index_sound db search_key fuel page out hsearch⟩

/-- Concrete two-level index tree for the C4 witness: root (page 1,
0-based) with one cell keyed "bb"→5, left child page 2 holding "aa"→1 and
"bb"→3, right-most child page 3 holding "bb"→9 and "cc"→12. -/
def c4rootData : List Nat :=
  padTo [2, 0, 0, 0, 1, 0, 0, 0, 0, 0, 0, 4, 0, 20, 0, 0, 0, 0, 0, 0,
         0, 0, 0, 3, 6, 3, 17, 1, 98, 98, 5] 64

def c4db : Database :=
  { file :=
      padTo (List.replicate 16 0 ++ [0, 64]) 64 ++
      c4rootData ++
      padTo [10, 0, 0, 0, 2, 0, 0, 0, 0, 14, 0, 22, 0, 0,
             6, 3, 17, 1, 97, 97, 1, 0, 6, 3, 17, 1, 98, 98, 3] 64 ++
      padTo [10, 0, 0, 0, 2, 0, 0, 0, 0, 14, 0, 22, 0, 0,
             6, 3, 17, 1, 98, 98, 9, 0, 6, 3, 17, 1, 99, 99, 12] 64 }

def c4root : Page :=
  { data := c4rootData, page_number := 1 }

set_option maxRecDepth 8000 in
/-- Witness for `c4_index_search_sound_complete`: searching the concrete
tree above for "bb" yields the rowids 5 (root cell), 3 (left leaf) and 9
(right leaf) and nothing else. -/
theorem c4_index_search_witness :
    search_index c4db (IndexSearcher.walker c4db [98, 98]) 2 c4root =
        some [[([98, 98], 5)], [([98, 98], 3)], [([98, 98], 9)]] ∧
      storedEntries c4db 2 c4root =
        some [([97, 97], 1), ([98, 98], 3), ([98, 98], 5), ([98, 98], 9), ([99, 99], 12)] ∧
      (∀ e ∈ [([97, 97], 1), ([98, 98], 3), ([98, 98], 5), ([98, 98], 9), ([99, 99], 12)],
        Prod.fst e = [98, 98] →
        e ∈ ([[([98, 98], 5)], [([98, 98], 3)], [([98, 98], 9)]] :
          List (List (List Nat × Nat))).flatten) ∧
      (∀ e ∈ ([[([98, 98], 5)], [([98, 98], 3)], [([98, 98], 9)]] :
          List (List (List Nat × Nat))).flatten, Prod.fst e = [98, 98]) := by
  have h := c4_index_search_sound_complete c4db [98, 98] 2 c4root
    [[([98, 98], 5)], [([98, 98], 3)], [([98, 98], 9)]]
    [([97, 97], 1), ([98, 98], 3), ([98, 98], 5), ([98, 98], 9), ([99, 99], 12)]
    (by decide) (by decide) (by decide)
  exact ⟨by decide, by decide, h.1, h.2⟩

/-! ## C6: the record-header decoder (`src/app/records.py`
`RecordFormat.parse_header`) -/

/-- The serial-type loop of `RecordFormat.parse_header`
(`src/app/records.py`): `while total_bytes_read < record_header.value - 1`,
decode a varint at `data[offset + total_bytes_read:]`, add its encoded
length to `total_bytes_read` and append the decoded serial type. The
guard compares against `value - 1`, not against the count of declared
header bytes after the size varint, and nothing checks that the final
`total_bytes_read` lands exactly on the declared boundary. Every
successful iteration consumes at least one unit of the countdown's
budget (`bytes_length ≥ 1`), so initial fuel `stop + 1` never reaches
zero with the guard still true. -/
def RecordFormat.parseHeaderLoop (data : List Nat) (offset stop : Nat) :
    Nat → Nat → List (SerialKind × Nat) → Option (Nat × List (SerialKind × Nat))
  | 0, total, acc => if total < stop then none else some (total, acc)
  | fuel + 1, total, acc =>
    if total < stop then do
      let piece := data.drop (offset + total)
      let serial_type_varint ← Varint.from_data piece
      let st ← SQLiteSerialType.decode serial_type_varint.value
      RecordFormat.parseHeaderLoop data offset stop fuel
        (total + serial_type_varint.bytes_length) (acc ++ [st])
    else some (total, acc)

/-- `RecordFormat.parse_header` (`src/app/records.py`): decode the
header-size varint, run the serial-type loop from `offset =
record_header.bytes_length` with bound `record_header.value - 1`
(truncated subtraction: Python's `value - 1` is negative only when
`value = 0`, and then the guard is false exactly as `0 - 1 = 0` makes it
here), and return `offset + total_bytes_read` with the serial types. -/
def RecordFormat.parse_header (data : List Nat) :
    Option (Nat × List (SerialKind × Nat)) := do
  let record_header ← Varint.from_data data
  let (total, serial_types) ← RecordFormat.parseHeaderLoop data
    record_header.bytes_length (record_header.value - 1)
    (record_header.value - 1 + 1) 0 []
  pure (record_header.bytes_length + total, serial_types)

set_option maxRecDepth 8000 in
/-- C6. The record-header decoder does not consume exactly `header_size`
bytes and does not error on overshoot. First input: the header size is
encoded in two bytes as 128, so the header is 128 bytes including the
size varint itself, yet the decoder consumes `2 + 127 = 129` bytes
because the loop bound `value - 1` only discounts a one-byte size
varint. Second input: the declared header size is 2, but the single
serial-type varint is two bytes long, overshooting the declared boundary
by one byte; the decoder returns normally instead of reporting a decode
error. -/
theorem c6_parse_header_miscount_and_silent_overshoot :
    Varint.from_data ([129, 0] ++ List.replicate 127 0) =
        some { value := 128, bytes_length := 2 } ∧
      RecordFormat.parse_header ([129, 0] ++ List.replicate 127 0) =
        some (129, List.replicate 127 (SerialKind.null, 0)) ∧
      129 ≠ 128 ∧
      RecordFormat.parse_header [2, 129, 1] =
        some (3, [(SerialKind.text 58, 58)]) ∧
      1 + 2 > 2 := by
  refine ⟨by decide, ?_, by decide, by decide, by decide⟩
  decide

/-! ## C9: user-table record decoding (`src/app/records.py`
`UserTableRecord.from_record`) -/

/-- A UTF-8 continuation byte. -/
def utf8Cont (c : Nat) : Bool := decide (0x80 ≤ c ∧ c ≤ 0xBF)

/-- Strict UTF-8 validity, as Python's `bytes.decode()` checks it:
ASCII, the two-, three- and four-byte forms with their restricted first
continuation bytes (no overlong forms, no surrogates, nothing above
U+10FFFF). -/
def validUtf8 : List Nat → Bool
  | [] => true
  | b :: rest =>
    if b ≤ 0x7F then validUtf8 rest
    else if 0xC2 ≤ b && b ≤ 0xDF then
      match rest with
      | c1 :: rest1 => utf8Cont c1 && validUtf8 rest1
      | _ => false
    else if b = 0xE0 then
      match rest with
      | c1 :: c2 :: rest2 =>
        decide (0xA0 ≤ c1 ∧ c1 ≤ 0xBF) && utf8Cont c2 && validUtf8 rest2
      | _ => false
    else if (0xE1 ≤ b && b ≤ 0xEC) || b = 0xEE || b = 0xEF then
      match rest with
      | c1 :: c2 :: rest2 => utf8Cont c1 && utf8Cont c2 && validUtf8 rest2
      | _ => false
    else if b = 0xED then
      match rest with
      | c1 :: c2 :: rest2 =>
        decide (0x80 ≤ c1 ∧ c1 ≤ 0x9F) && utf8Cont c2 && validUtf8 rest2
      | _ => false
    else if b = 0xF0 then
      match rest with
      | c1 :: c2 :: c3 :: rest3 =>
        decide (0x90 ≤ c1 ∧ c1 ≤ 0xBF) && utf8Cont c2 && utf8Cont c3 && validUtf8 rest3
      | _ => false
    else if 0xF1 ≤ b && b ≤ 0xF3 then
      match rest with
      | c1 :: c2 :: c3 :: rest3 =>
        utf8Cont c1 && utf8Cont c2 && utf8Cont c3 && validUtf8 rest3
      | _ => false
    else if b = 0xF4 then
      match rest with
      | c1 :: c2 :: c3 :: rest3 =>
        decide (0x80 ≤ c1 ∧ c1 ≤ 0x8F) && utf8Cont c2 && utf8Cont c3 && validUtf8 rest3
      | _ => false
    else false

/-- A Python value stored in the decoded column dict: a `str` (identified
by its UTF-8 bytes — UTF-8 decoding is injective on valid input) or an
`int`. -/
inductive PyVal
  | str (bytes : List Nat)
  | int (n : Nat)
deriving DecidableEq, Repr

/-- The `try: .decode() except UnicodeDecodeError: int.from_bytes(...)`
idiom of `from_record`: decode as UTF-8 when valid, otherwise the
big-endian integer value of the bytes (Python's default byte order). -/
def pyDecodeOrInt (bs : List Nat) : PyVal :=
  if validUtf8 bs then PyVal.str bs else PyVal.int (bytesToNat bs)

/-- Python dict assignment `d[k] = v`: replace the value of an existing
key in place, else append the new key. -/
def dictSet (d : List (List Nat × PyVal)) (k : List Nat) (v : PyVal) :
    List (List Nat × PyVal) :=
  match d with
  | [] => [(k, v)]
  | (kk, vv) :: rest => if kk = k then (k, v) :: rest else (kk, vv) :: dictSet rest k v

/-- The column loop of `UserTableRecord.from_record` (`src/app/records.py`):
for each column name, a column named "id" (`[105, 100]`) is assigned the
cell's rowid and the loop `continue`s — without reading the serial type
and WITHOUT advancing `offset` past the column's stored bytes; every
other column takes `data[offset : offset + bytes_length]` decoded (or
its integer value on decode failure) and advances `offset`. Indexing
`serial_types[column_idx]` out of range raises (`none`). -/
def UserTableRecord.fromRecordLoop (row_id : Nat) (data : List Nat)
    (serial_types : List (SerialKind × Nat)) :
    List (List Nat) → Nat → Nat → List (List Nat × PyVal) →
      Option (List (List Nat × PyVal))
  | [], _, _, columns => some columns
  | column :: rest, column_idx, offset, columns =>
    if column = [105, 100] then
      UserTableRecord.fromRecordLoop row_id data serial_types rest (column_idx + 1)
        offset (dictSet columns column (PyVal.int row_id))
    else do
      let st ← serial_types[column_idx]?
      let value := pyDecodeOrInt (pySlice data offset (offset + st.2))
      UserTableRecord.fromRecordLoop row_id data serial_types rest (column_idx + 1)
        (offset + st.2) (dictSet columns column value)

/-- `UserTableRecord.from_record`: parse the record header, then run the
column loop from the end of the header. -/
def UserTableRecord.from_record (row_id : Nat) (data : List Nat)
    (table_columns : List (List Nat)) : Option (List (List Nat × PyVal)) := do
  let (offset, serial_types) ← RecordFormat.parse_header data
  UserTableRecord.fromRecordLoop row_id data serial_types table_columns 0 offset []

/-- Modelled from the spec: a column named "id" receives the rowid
exactly when its stored value has zero byte length; an "id" column with
a non-zero stored length takes its stored value; and every column —
"id" included — consumes its stored bytes, keeping later columns
aligned. -/
def UserTableRecord.fromRecordSpecLoop (row_id : Nat) (data : List Nat)
    (serial_types : List (SerialKind × Nat)) :
    List (List Nat) → Nat → Nat → List (List Nat × PyVal) →
      Option (List (List Nat × PyVal))
  | [], _, _, columns => some columns
  | column :: rest, column_idx, offset, columns => do
    let st ← serial_types[column_idx]?
    let value :=
      if column = [105, 100] ∧ st.2 = 0 then PyVal.int row_id
      else pyDecodeOrInt (pySlice data offset (offset + st.2))
    UserTableRecord.fromRecordSpecLoop row_id data serial_types rest (column_idx + 1)
      (offset + st.2) (dictSet columns column value)

/-- Modelled from the spec: `from_record` with the spec's column loop. -/
def UserTableRecord.fromRecordSpec (row_id : Nat) (data : List Nat)
    (table_columns : List (List Nat)) : Option (List (List Nat × PyVal)) := do
  let (offset, serial_types) ← RecordFormat.parse_header data
  UserTableRecord.fromRecordSpecLoop row_id data serial_types table_columns 0 offset []

/-- Counterexample to C9 as stated: with record `[3, 1, 21, 42, 97, 98,
99, 100]` (an `INT8` id column storing byte `42`, then a 4-byte text
column) and rowid 7, the code assigns the rowid to the id column even
though its stored value has length 1, and — because it never skips that
stored byte — reads the next column one byte early; the spec's decoding
gives the id column its stored value and keeps the text column aligned. -/
theorem c9_nonzero_id_takes_rowid_and_misaligns :
    UserTableRecord.from_record 7 [3, 1, 21, 42, 97, 98, 99, 100]
        [[105, 100], [110, 97, 109, 101]] =
      some [([105, 100], PyVal.int 7), ([110, 97, 109, 101], PyVal.str [42, 97, 98, 99])] ∧
    UserTableRecord.fromRecordSpec 7 [3, 1, 21, 42, 97, 98, 99, 100]
        [[105, 100], [110, 97, 109, 101]] =
      some [([105, 100], PyVal.str [42]), ([110, 97, 109, 101], PyVal.str [97, 98, 99, 100])] := by
  exact ⟨by decide, by decide⟩

/-- When every "id" column's serial type has zero byte length (and is in
range), the code's loop agrees with the spec's loop: the id branch skips
zero bytes, so alignment is preserved. -/
theorem fromRecordLoop_eq_specLoop (row_id : Nat) (data : List Nat)
    (serial_types : List (SerialKind × Nat)) :
    ∀ (cols : List (List Nat)) (column_idx offset : Nat)
      (columns : List (List Nat × PyVal)),
      (∀ i : Nat, cols[i]? = some [105, 100] →
        ∃ st, serial_types[column_idx + i]? = some st ∧ st.2 = 0) →
      UserTableRecord.fromRecordLoop row_id data serial_types cols column_idx offset columns =
        UserTableRecord.fromRecordSpecLoop row_id data serial_types cols column_idx offset
          columns := by
  intro cols
  induction cols with
  | nil => intro _ _ _ _; rfl
  | cons c rest ih =>
    intro column_idx offset columns hid
    have hid' : ∀ i : Nat, rest[i]? = some [105, 100] →
        ∃ st, serial_types[column_idx + 1 + i]? = some st ∧ st.2 = 0 := by
      intro i hi
      have h := hid (i + 1) (by simpa using hi)
      rwa [show column_idx + (i + 1) = column_idx + 1 + i by omega] at h
    by_cases hc : c = [105, 100]
    · subst hc
      obtain ⟨st, hst, hz⟩ := hid 0 (by simp)
      rw [Nat.add_zero] at hst
      simp only [UserTableRecord.fromRecordLoop, UserTableRecord.fromRecordSpecLoop,
        if_pos rfl, hst, Option.bind_eq_bind', Option.some_bind',
        if_pos (And.intro rfl hz), hz, Nat.add_zero]
      exact ih (column_idx + 1) offset (dictSet columns [105, 100] (PyVal.int row_id)) hid'
    · cases hst : serial_types[column_idx]? with
      | none =>
        simp only [UserTableRecord.fromRecordLoop, UserTableRecord.fromRecordSpecLoop,
          if_neg hc, hst, Option.bind_eq_bind', Option.none_bind']
      | some st =>
        simp only [UserTableRecord.fromRecordLoop, UserTableRecord.fromRecordSpecLoop,
          if_neg hc, hst, Option.bind_eq_bind', Option.some_bind',
          if_neg (fun h : c = [105, 100] ∧ st.2 = 0 => hc h.1)]
        exact ih (column_idx + 1) (offset + st.2)
          (dictSet columns c (pyDecodeOrInt (pySlice data offset (offset + st.2)))) hid'

/-- C9. Corrected: the code assigns the rowid to every column named "id"
unconditionally and never consumes that column's stored bytes; this
coincides with the claimed behaviour (rowid exactly on zero stored
length, stored bytes consumed, later columns aligned) precisely when
every "id" column's serial type has zero byte length. Under that
condition `from_record` equals the decoding the claim describes. -/
theorem c9_id_column_rowid (row_id : Nat) (data : List Nat)
    (table_columns : List (List Nat)) (offset : Nat)
    (serial_types : List (SerialKind × Nat))
    (hp : RecordFormat.parse_header data = some (offset, serial_types))
    (hid : ∀ i : Nat, table_columns[i]? = some [105, 100] →
      ∃ st, serial_types[i]? = some st ∧ st.2 = 0) :
    UserTableRecord.from_record row_id data table_columns =
      UserTableRecord.fromRecordSpec row_id data table_columns := by
  unfold UserTableRecord.from_record UserTableRecord.fromRecordSpec
  rw [hp]
  simp only [Option.bind_eq_bind', Option.some_bind']
  exact fromRecordLoop_eq_specLoop row_id data serial_types table_columns 0 offset []
    (fun i hi => by simpa using hid i hi)

/-- Witness for `c9_id_column_rowid`: record `[3, 8, 21, 97, 98, 99,
100]` stores the id column as serial type 8 (integer 0, zero bytes), so
the code and the spec agree: id ↦ rowid 42, name ↦ "abcd". -/
theorem c9_id_column_rowid_witness :
    UserTableRecord.from_record 42 [3, 8, 21, 97, 98, 99, 100]
        [[105, 100], [110, 97, 109, 101]] =
      UserTableRecord.fromRecordSpec 42 [3, 8, 21, 97, 98, 99, 100]
        [[105, 100], [110, 97, 109, 101]] :=
  c9_id_column_rowid 42 [3, 8, 21, 97, 98, 99, 100] [[105, 100], [110, 97, 109, 101]]
    3 [(SerialKind.int0, 0), (SerialKind.text 4, 4)] (by decide)
    (fun i => by
      match i with
      | 0 => exact fun _ => ⟨(SerialKind.int0, 0), rfl, rfl⟩
      | 1 => intro hx; exact absurd hx (by decide)
      | n + 2 => intro hx; simp at hx)

/-! ## C8: the `.tables` command (`src/app/main.py`, schema records from
`src/app/parsers.py`) -/

/-- `bytes.decode()` without a handler: the bytes themselves when valid
UTF-8, a raised `UnicodeDecodeError` (`none`) otherwise. -/
def pyDecode (bs : List Nat) : Option (List Nat) :=
  if validUtf8 bs then some bs else none

/-- Stable insertion of `x` into a sorted list of naturals: before the
first element not below it (Python `list.sort`). -/
def insertSortedNat (x : Nat) : List Nat → List Nat
  | [] => [x]
  | y :: ys => if y < x then y :: insertSortedNat x ys else x :: y :: ys

/-- `list.sort()` on naturals. -/
def sortNat : List Nat → List Nat
  | [] => []
  | x :: xs => insertSortedNat x (sortNat xs)

/-- Stable insertion of a byte string into a sorted list under `bytesLt`
(Python string comparison is by code point, which agrees with byte-wise
comparison of UTF-8). -/
def insertSortedBytes (x : List Nat) : List (List Nat) → List (List Nat)
  | [] => [x]
  | y :: ys => if bytesLt y x then y :: insertSortedBytes x ys else x :: y :: ys

/-- `list.sort()` on byte strings. -/
def sortBytes : List (List Nat) → List (List Nat)
  | [] => []
  | x :: xs => insertSortedBytes x (sortBytes xs)

/-- `sep.join(items)`. -/
def joinWith (sep : List Nat) : List (List Nat) → List Nat
  | [] => []
  | [x] => x
  | x :: y :: rest => x ++ sep ++ joinWith sep (y :: rest)

/-- `get_page_size` (`src/app/main.py`): the 2-byte big-endian integer at
file offset 16. -/
def Main.get_page_size (file : List Nat) : Nat :=
  bytesToNat (pySlice file 16 18)

/-- `get_cell_count_from_page` (`src/app/main.py`): the 2-byte big-endian
integer at page offset 3. -/
def Main.get_cell_count_from_page (page : List Nat) : Nat :=
  bytesToNat (pySlice page 3 5)

/-- `get_cell_count` (`src/app/main.py`): seek to 100 and read the page
blob, then read its cell count. -/
def Main.get_cell_count (file : List Nat) (page_size : Nat) : Nat :=
  Main.get_cell_count_from_page (pySlice file 100 (100 + page_size))

/-- `get_cell_pointers` (`src/app/main.py`): the page type byte selects
the header size (8 for leaves, 12 otherwise; an unknown byte or an empty
blob raises), then the 2-byte pointers right after the header are
collected and sorted ascending. -/
def Main.get_cell_pointers (page : List Nat) (cell_count : Nat) : Option (List Nat) := do
  let b0 ← page[0]?
  let page_type ← PageType.ofByte b0
  let page_header_size :=
    if page_type = PageType.leafTable ∨ page_type = PageType.leafIndex then 8 else 12
  pure (sortNat ((List.range cell_count).map fun i =>
    bytesToNat (pySlice page (page_header_size + i * 2) (page_header_size + (i + 1) * 2))))

/-- The loop of `_get_records` (`src/app/main.py`): for each cell
pointer, seek the FILE to `start + cell_pointer` (for `.tables`, `start`
is the default 0), stream-read the payload-size and rowid varints, and
read `payload_size` bytes of record. -/
def Main.getRecordsGo (file : List Nat) (start : Nat) : List Nat → Option (List (List Nat))
  | [] => some []
  | cp :: rest => do
    let pos := start + cp
    let record_size_varint ← Varint.from_data (file.drop pos)
    let rowid_varint ← Varint.from_data (file.drop (pos + record_size_varint.bytes_length))
    let data := pySlice file (pos + record_size_varint.bytes_length + rowid_varint.bytes_length)
      (pos + record_size_varint.bytes_length + rowid_varint.bytes_length +
        record_size_varint.value)
    let rest' ← Main.getRecordsGo file start rest
    pure (data :: rest')

/-- `_get_records` (`src/app/main.py`). -/
def Main.get_records (file : List Nat) (page : List Nat) (cell_count start : Nat) :
    Option (List (List Nat)) := do
  let cps ← Main.get_cell_pointers page cell_count
  Main.getRecordsGo file start cps

/-- A parsed `sqlite_schema` row (`src/app/parsers.py`
`SqliteSchemaRecord`); strings are kept as their UTF-8 bytes. -/
structure SqliteSchemaRecord where
  record_type : List Nat
  name : List Nat
  table_name : List Nat
  rootpage : List Nat
  sql : List Nat
  serial_types : List (SerialKind × Nat)
deriving DecidableEq, Repr

/-- `SqliteSchemaRecord.from_record` (`src/app/parsers.py`): the header
parse is a verbatim duplicate of `RecordFormat.parse_header`
(`src/app/records.py`), so the same loop embeds it; then the five schema
columns are sliced in order, each string column put through
`.decode()`. Missing serial types raise `IndexError` (`none`). -/
def SqliteSchemaRecord.from_record (data : List Nat) : Option SqliteSchemaRecord := do
  let record_header ← Varint.from_data data
  let (total, serial_types) ← RecordFormat.parseHeaderLoop data
    record_header.bytes_length (record_header.value - 1)
    (record_header.value - 1 + 1) 0 []
  let offset := record_header.bytes_length + total
  let st0 ← serial_types[0]?
  let record_type ← pyDecode (pySlice data offset (offset + st0.2))
  let o1 := offset + st0.2
  let st1 ← serial_types[1]?
  let name ← pyDecode (pySlice data o1 (o1 + st1.2))
  let o2 := o1 + st1.2
  let st2 ← serial_types[2]?
  let table_name ← pyDecode (pySlice data o2 (o2 + st2.2))
  let o3 := o2 + st2.2
  let st3 ← serial_types[3]?
  let rootpage := pySlice data o3 (o3 + st3.2)
  let o4 := o3 + st3.2
  let st4 ← serial_types[4]?
  let sql ← pyDecode (pySlice data o4 (o4 + st4.2))
  pure { record_type, name, table_name, rootpage, sql, serial_types }

/-- Parsing every raw record of the schema page
(`get_records_for_sqlite_schema_table` forces the `map` when the list
comprehension iterates it; any parse failure raises). -/
def Main.schemaRecords : List (List Nat) → Option (List SqliteSchemaRecord)
  | [] => some []
  | r :: rest => do
    let s ← SqliteSchemaRecord.from_record r
    let ss ← Main.schemaRecords rest
    pure (s :: ss)

/-- The `.tables` branch of `main` (`src/app/main.py`): page size, cell
count, the schema page blob read from offset 100, its records parsed,
then ALL `table_name` values — with no filter on the record's type —
sorted and joined with single spaces. -/
def Main.dotTables (file : List Nat) : Option (List Nat) := do
  let page_size := Main.get_page_size file
  let cell_count := Main.get_cell_count file page_size
  let page := pySlice file 100 (100 + page_size)
  let recs ← Main.get_records file page cell_count 0
  let ss ← Main.schemaRecords recs
  pure (joinWith [32] (sortBytes (ss.map SqliteSchemaRecord.table_name)))

/-- Modelled from the spec: `.tables` projects `tbl_name` only over
schema records whose `type` column equals "table" (bytes
`[116, 97, 98, 108, 101]`), sorted ascending and joined with single
spaces. -/
def Main.dotTablesFiltered (file : List Nat) : Option (List Nat) := do
  let page_size := Main.get_page_size file
  let cell_count := Main.get_cell_count file page_size
  let page := pySlice file 100 (100 + page_size)
  let recs ← Main.get_records file page cell_count 0
  let ss ← Main.schemaRecords recs
  pure (joinWith [32] (sortBytes
    (((ss.filter fun s => s.record_type == [116, 97, 98, 108, 101]).map
      SqliteSchemaRecord.table_name))))

/-- A database image whose schema page holds a table named/on "t" and an
index "i" on "t": page size 256, leaf schema page at offset 100 with two
cells (pointers deliberately unsorted), the table record at file offset
150 and the index record at 180. -/
def c8file : List Nat :=
  padTo (List.replicate 16 0 ++ [1, 0]) 100 ++
  padTo [13, 0, 0, 0, 2, 0, 0, 0, 0, 180, 0, 150] 50 ++
  padTo ([15, 1, 6, 23, 15, 15, 1, 15] ++
    [116, 97, 98, 108, 101] ++ [116, 116, 2, 120]) 30 ++
  ([15, 2, 6, 23, 15, 15, 1, 15] ++
    [105, 110, 100, 101, 120] ++ [105, 116, 3, 121])

set_option maxRecDepth 8000 in
/-- Counterexample to C8 as stated: on `c8file`, `.tables` prints
"t t" — the index record's `tbl_name` is included because nothing
filters on the `type` column — while the claimed behaviour prints
"t". -/
theorem c8_dot_tables_includes_indexes :
    Main.dotTables c8file = some [116, 32, 116] ∧
      Main.dotTablesFiltered c8file = some [116] := by
  exact ⟨by decide, by decide⟩

/-- C8. Corrected: the `.tables` branch projects `tbl_name` from EVERY
schema record, with no filter on the `type` column, so index (and other)
records are listed too; the output matches the claimed behaviour exactly
when every schema record on the page has type "table". -/
theorem c8_dot_tables_no_type_filter (file : List Nat)
    (recs : List (List Nat)) (ss : List SqliteSchemaRecord)
    (hr : Main.get_records file
      (pySlice file 100 (100 + Main.get_page_size file))
      (Main.get_cell_count file (Main.get_page_size file)) 0 = some recs)
    (hs : Main.schemaRecords recs = some ss)
    (hall : ∀ s ∈ ss, s.record_type = [116, 97, 98, 108, 101]) :
    Main.dotTables file = Main.dotTablesFiltered file := by
  have hfilter : (ss.filter fun s => s.record_type == [116, 97, 98, 108, 101]) = ss :=
    List.filter_eq_self.mpr fun s hmem => beq_iff_eq.mpr (hall s hmem)
  unfold Main.dotTables Main.dotTablesFiltered
  simp only [hr, hs, Option.bind_eq_bind', Option.some_bind', hfilter]

/-- The image `c8file` with the index record's type column rewritten to
"table" (name "i", tbl_name "u"): all schema records are tables. -/
def c8fileAllTables : List Nat :=
  padTo (List.replicate 16 0 ++ [1, 0]) 100 ++
  padTo [13, 0, 0, 0, 2, 0, 0, 0, 0, 180, 0, 150] 50 ++
  padTo ([15, 1, 6, 23, 15, 15, 1, 15] ++
    [116, 97, 98, 108, 101] ++ [116, 116, 2, 120]) 30 ++
  ([15, 2, 6, 23, 15, 15, 1, 15] ++
    [116, 97, 98, 108, 101] ++ [105, 117, 3, 121])

set_option maxRecDepth 8000 in
/-- Witness for `c8_dot_tables_no_type_filter`: on `c8fileAllTables`
every schema record has type "table", and the unfiltered and filtered
`.tables` outputs coincide. -/
theorem c8_dot_tables_no_type_filter_witness :
    Main.dotTables c8fileAllTables = Main.dotTablesFiltered c8fileAllTables :=
  c8_dot_tables_no_type_filter c8fileAllTables
    [[6, 23, 15, 15, 1, 15, 116, 97, 98, 108, 101, 116, 116, 2, 120],
     [6, 23, 15, 15, 1, 15, 116, 97, 98, 108, 101, 105, 117, 3, 121]]
    [{ record_type := [116, 97, 98, 108, 101], name := [116], table_name := [116],
       rootpage := [2], sql := [120],
       serial_types := [(SerialKind.text 5, 5), (SerialKind.text 1, 1),
         (SerialKind.text 1, 1), (SerialKind.int8, 1), (SerialKind.text 1, 1)] },
     { record_type := [116, 97, 98, 108, 101], name := [105], table_name := [117],
       rootpage := [3], sql := [121],
       serial_types := [(SerialKind.text 5, 5), (SerialKind.text 1, 1),
         (SerialKind.text 1, 1), (SerialKind.int8, 1), (SerialKind.text 1, 1)] }]
    (by decide) (by decide) (by decide)

/-! ## C10: payload bytes — in-memory page blob vs file seek
(`src/app/btree.py` `RecordCollector.visit_leaf`, `src/app/records.py`
`RecordFormat.get_records`) -/

/-- The cell loop of `RecordFormat.get_records` (`src/app/records.py`):
for each cell pointer, seek the FILE to `page_size * page_number +
cell_pointer`, stream-read the payload-size and rowid varints, and read
`payload_size` bytes of record. -/
def RecordFormat.getRecordsGo (db : Database) (page : Page) :
    List Nat → Option (List (List Nat))
  | [] => some []
  | cell_pointer :: rest => do
    let pos := db.page_size * page.page_number + cell_pointer
    let record_size_varint ← Varint.from_data (db.file.drop pos)
    let rowid_varint ← Varint.from_data (db.file.drop (pos + record_size_varint.bytes_length))
    let data := pySlice db.file
      (pos + record_size_varint.bytes_length + rowid_varint.bytes_length)
      (pos + record_size_varint.bytes_length + rowid_varint.bytes_length +
        record_size_varint.value)
    let records ← RecordFormat.getRecordsGo db page rest
    pure (data :: records)

/-- `RecordFormat.get_records` (`src/app/records.py`). -/
def RecordFormat.get_records (db : Database) (page : Page) : Option (List (List Nat)) :=
  RecordFormat.getRecordsGo db page page.cell_pointers

/-- A successfully constructed page carries exactly the blob and page
number it was built from. -/
theorem Page.ofData_eq {data : List Nat} {n : Nat} {page : Page}
    (h : Page.ofData data n = some page) :
    page.data = data ∧ page.page_number = n := by
  unfold Page.ofData at h
  simp only [Option.bind_eq_bind', Option.pure_def, Option.bind_eq_some'] at h
  obtain ⟨b, hb, t, ht, hpage⟩ := h
  cases hpage
  exact ⟨rfl, rfl⟩

/-- The cell starting at `cp` lies — varints and payload — entirely
within the first `ps` bytes of the blob. -/
def cellFits (ps : Nat) (blob : List Nat) (cp : Nat) : Bool :=
  match Varint.from_data (blob.drop cp) with
  | none => false
  | some rs =>
    match Varint.from_data ((blob.drop cp).drop rs.bytes_length) with
    | none => false
    | some rid =>
      decide (cp + rs.bytes_length + rid.bytes_length + rs.value ≤ ps)

/-- Dropping `q ≤ n` elements equals dropping them from the first `n`
elements and appending the remainder after `n`. -/
theorem drop_take_append_drop (Y : List Nat) (q n : Nat) (hq : q ≤ n) :
    Y.drop q = (Y.take n).drop q ++ Y.drop n := by
  conv_lhs => rw [← List.take_append_drop n Y]
  rw [List.drop_append_eq_append_drop]
  by_cases hl : n ≤ Y.length
  · rw [List.length_take, min_eq_left hl, Nat.sub_eq_zero_of_le hq, List.drop_zero]
  · have h1 : Y.drop n = [] := List.drop_eq_nil_of_le (by omega)
    rw [h1, List.drop_nil, List.append_nil]

/-- The file suffix at `a + q` is the page-blob suffix at `q` followed by
the file past the page, for `q` within the page. -/
theorem drop_pySlice_append (l : List Nat) (a n q : Nat) (hq : q ≤ n) :
    l.drop (a + q) = (pySlice l a (a + n)).drop q ++ l.drop (a + n) := by
  unfold pySlice
  rw [show a + n - a = n from by omega]
  have e1 : (l.drop a).drop q = l.drop (a + q) := by rw [List.drop_drop]
  have e2 : (l.drop a).drop n = l.drop (a + n) := by rw [List.drop_drop]
  rw [← e1, ← e2]
  exact drop_take_append_drop (l.drop a) q n hq

/-- Within the page (`q + v ≤ n`), `v` bytes taken from the blob suffix
at `q` equal `v` bytes taken from the file suffix at `a + q`. -/
theorem take_drop_slice_eq (l : List Nat) (a n q v : Nat) (hqv : q + v ≤ n) :
    ((pySlice l a (a + n)).drop q).take v = (l.drop (a + q)).take v := by
  rw [drop_pySlice_append l a n q (by omega), List.take_append_eq_append_take]
  by_cases hl : a + n ≤ l.length
  · have hlen : v ≤ ((pySlice l a (a + n)).drop q).length := by
      unfold pySlice
      rw [List.length_drop, List.length_take, List.length_drop]
      omega
    rw [Nat.sub_eq_zero_of_le hlen, List.take_zero, List.append_nil]
  · have htail : l.drop (a + n) = [] := List.drop_eq_nil_of_le (by omega)
    rw [htail, List.take_nil, List.append_nil]

/-- When the page blob is the file slice at `page_size * page_number` and
every cell fits within the page, the file-seeking record reader returns
exactly the payloads the blob-slicing reader collects. -/
theorem getRecordsGo_refines (db : Database) (page : Page)
    (hdata : page.data = pySlice db.file (db.page_size * page.page_number)
      (db.page_size * page.page_number + db.page_size)) :
    ∀ cps out, RecordCollector.visitLeafGo page cps = some out →
      (∀ cp ∈ cps, cellFits db.page_size page.data cp = true) →
      RecordFormat.getRecordsGo db page cps = some (out.map Prod.snd) := by
  intro cps
  induction cps with
  | nil =>
    intro out hv _
    cases hv
    rfl
  | cons cp rest ih =>
    intro out hv hfit
    simp only [RecordCollector.visitLeafGo, Option.bind_eq_bind', Option.pure_def,
      Option.bind_eq_some'] at hv
    obtain ⟨rs, hrs, rid, hrid, recs, hrecs, hout⟩ := hv
    have hf := hfit cp (List.mem_cons_self cp rest)
    unfold cellFits at hf
    simp only [hrs] at hf
    simp only [hrid] at hf
    have hle : cp + rs.bytes_length + rid.bytes_length + rs.value ≤ db.page_size :=
      of_decide_eq_true hf
    have e1 : Varint.from_data (db.file.drop (db.page_size * page.page_number + cp)) =
        some rs := by
      rw [drop_pySlice_append db.file (db.page_size * page.page_number) db.page_size cp
        (by omega), ← hdata]
      exact Varint.from_data_append hrs
    have e2 : Varint.from_data (db.file.drop
        (db.page_size * page.page_number + cp + rs.bytes_length)) = some rid := by
      rw [show db.page_size * page.page_number + cp + rs.bytes_length =
        db.page_size * page.page_number + (cp + rs.bytes_length) from by omega]
      rw [drop_pySlice_append db.file (db.page_size * page.page_number) db.page_size
        (cp + rs.bytes_length) (by omega), ← hdata]
      rw [← List.drop_drop]
      exact Varint.from_data_append hrid
    have e3 : pySlice db.file
        (db.page_size * page.page_number + cp + rs.bytes_length + rid.bytes_length)
        (db.page_size * page.page_number + cp + rs.bytes_length + rid.bytes_length +
          rs.value) =
        pySlice (page.data.drop cp) (rs.bytes_length + rid.bytes_length)
          (rs.bytes_length + rid.bytes_length + rs.value) := by
      unfold pySlice
      rw [show db.page_size * page.page_number + cp + rs.bytes_length + rid.bytes_length +
        rs.value - (db.page_size * page.page_number + cp + rs.bytes_length +
          rid.bytes_length) = rs.value from by omega]
      rw [show rs.bytes_length + rid.bytes_length + rs.value -
        (rs.bytes_length + rid.bytes_length) = rs.value from by omega]
      rw [List.drop_drop]
      rw [show db.page_size * page.page_number + cp + rs.bytes_length + rid.bytes_length =
        db.page_size * page.page_number + (cp + (rs.bytes_length + rid.bytes_length))
        from by omega]
      have := take_drop_slice_eq db.file (db.page_size * page.page_number) db.page_size
        (cp + (rs.bytes_length + rid.bytes_length)) rs.value (by omega)
      rw [← this, hdata]
    have hrest := ih recs hrecs (fun c hc => hfit c (List.mem_cons_of_mem cp hc))
    simp only [RecordFormat.getRecordsGo, Option.bind_eq_bind', Option.pure_def, e1,
      Option.some_bind', e2, hrest, e3]
    obtain rfl := Option.some.inj hout
    rfl

/-- Image for the C10 counterexample: page size 64; the page-0 blob
(loaded from file offset 100 by `Page.get_page`) holds a one-cell leaf
whose cell at blob offset 10 is `[3, 7, 1, 2, 3]` (payload `[1, 2, 3]`,
rowid 7), while the file bytes at offset `page_size * 0 + 10 = 10` —
where `RecordFormat.get_records` seeks — read `[2, 9, 5, 6]` (payload
`[5, 6]`). -/
def c10db0 : Database :=
  { file := padTo (List.replicate 10 0 ++ [2, 9, 5, 6, 0, 0] ++ [0, 64]) 100 ++
      padTo [13, 0, 0, 0, 1, 0, 0, 0, 0, 10, 3, 7, 1, 2, 3] 64 }

set_option maxRecDepth 8000 in
/-- Counterexample to C10 as stated: on page number 0 the two extraction
paths disagree — the blob slicer reads `[1, 2, 3]` from the blob that
begins at file offset 100, the file seeker reads `[5, 6]` from absolute
file offset 10. -/
theorem c10_page_zero_divergence :
    (Page.get_page c10db0 0).bind RecordCollector.visit_leaf = some [(7, [1, 2, 3])] ∧
      (Page.get_page c10db0 0).bind (fun p => RecordFormat.get_records c10db0 p) =
        some [[5, 6]] ∧
      ([[1, 2, 3]] : List (List Nat)) ≠ [[5, 6]] := by
  exact ⟨by decide, by decide, by decide⟩

/-- C10. Corrected: the two payload extractions agree on every page with
`page_number ≥ 1` — where `Page.get_page` loads the blob from file
offset `page_size * page_number`, the same base the file seeker uses —
for every cell lying entirely within the page; on page number 0 the
blob begins at file offset 100 while the seeker uses offset 0, so the
claimed equality fails there. -/
theorem c10_payload_refinement (db : Database) (pn : Nat) (page : Page)
    (out : List (Nat × List Nat))
    (hpn : 1 ≤ pn)
    (hget : Page.get_page db (pn : Int) = some page)
    (hv : RecordCollector.visit_leaf page = some out)
    (hfit : ∀ cp ∈ page.cell_pointers, cellFits db.page_size page.data cp = true) :
    RecordFormat.get_records db page = some (out.map Prod.snd) := by
  unfold Page.get_page at hget
  rw [if_neg (by omega : ¬((pn : Int) < 0))] at hget
  simp only [Int.toNat_natCast] at hget
  rw [if_neg (by omega : ¬(pn = 0))] at hget
  obtain ⟨hdata, hnum⟩ := Page.ofData_eq hget
  exact getRecordsGo_refines db page (by rw [hdata, hnum]) page.cell_pointers out hv hfit

/-- Image for the C10 witness: page size 64, page 1 at file offset 64, a
one-cell leaf with payload `[1, 2, 3]` at page offset 10. -/
def c10db1 : Database :=
  { file := padTo (List.replicate 16 0 ++ [0, 64]) 64 ++
      padTo [13, 0, 0, 0, 1, 0, 0, 0, 0, 10, 3, 7, 1, 2, 3] 64 }

set_option maxRecDepth 8000 in
/-- Witness for `c10_payload_refinement`: on page 1 of `c10db1` both
paths extract the payload `[1, 2, 3]`. -/
theorem c10_payload_refinement_witness :
    RecordFormat.get_records c10db1
      { data := padTo [13, 0, 0, 0, 1, 0, 0, 0, 0, 10, 3, 7, 1, 2, 3] 64,
        page_number := 1 } = some [[1, 2, 3]] :=
  c10_payload_refinement c10db1 1
    { data := padTo [13, 0, 0, 0, 1, 0, 0, 0, 0, 10, 3, 7, 1, 2, 3] 64, page_number := 1 }
    [(7, [1, 2, 3])] (by decide) (by decide) (by decide) (by decide)
